/- Verification development for the zkutil circom bridge:
   a shallow embedding of `src/circom_circuit.rs` and `src/wtns_reader.rs`
   (byte streams as lists of naturals, field elements as canonical
   representatives below the bn256 scalar modulus), together with proofs
   of the specified properties of the witness codec, the R1CS model,
   the synthesis bridge, the parameter filter and the serializers. -/
import Mathlib

namespace Zkutil

/-! # Byte-stream primitives

A byte stream is a `List Nat` consumed front to back.  Reader helpers
mirror `byteorder`/`std::io::Read`: reading past the end of the stream is
an `eof` error, and multi-byte integers are little-endian. -/

/-- Error kinds of the witness binary codec; one constructor per distinct
`bail!`/`Error::new` site in `load_witness_from_bin_reader` and
`wtns_reader.rs` (EOF stands for any failed `read_exact`/`read_u32`). -/
inductive WtnsError where
  | eof
  | invalidHeader
  | unsupportedVersion
  | invalidNumSections
  | invalidSectionType
  | invalidSectionLen
  | invalidFieldSize
  | invalidPrime
  | invalidWitnessSize
  | fieldOutOfRange
deriving DecidableEq, Repr

/-- `Read::read_exact` into an `n`-byte buffer: the first `n` bytes and the
remaining stream, or an EOF error. -/
def readBytes (n : Nat) (s : List Nat) : Except WtnsError (List Nat × List Nat) :=
  if n ≤ s.length then .ok (s.take n, s.drop n) else .error .eof

/-- Value of a little-endian byte sequence. -/
def fromLEBytes (bs : List Nat) : Nat :=
  bs.foldr (fun b acc => b + 256 * acc) 0

/-- Little-endian encoding of `v` into `n` bytes (the writer-side inverse of
`fromLEBytes`, used to build concrete streams and to state codec theorems). -/
def toLEBytes : Nat → Nat → List Nat
  | 0, _ => []
  | n + 1, v => v % 256 :: toLEBytes n (v / 256)

/-- `read_u32::<LittleEndian>`. -/
def readU32 (s : List Nat) : Except WtnsError (Nat × List Nat) := do
  let (bs, rest) ← readBytes 4 s
  pure (fromLEBytes bs, rest)

/-- `read_u64::<LittleEndian>`. -/
def readU64 (s : List Nat) : Except WtnsError (Nat × List Nat) := do
  let (bs, rest) ← readBytes 8 s
  pure (fromLEBytes bs, rest)

/-- The bn256 (alt_bn128) scalar-field modulus `r`, the only field modulus the
codec accepts. -/
def rBN : Nat :=
  21888242871839275222246405745257275088548364400416034343698204186575808495617

/-- The 32-byte little-endian encoding of `rBN` that the codec compares the
header's modulus field against (the `hex!` literal in the source). -/
def primeBytes : List Nat :=
  [0x01, 0x00, 0x00, 0xf0, 0x93, 0xf5, 0xe1, 0x43,
   0x91, 0x70, 0xb9, 0x79, 0x48, 0xe8, 0x33, 0x28,
   0x5d, 0x58, 0x81, 0x81, 0xb6, 0x45, 0x50, 0xb8,
   0x29, 0xa0, 0x31, 0xe1, 0x72, 0x4e, 0x64, 0x30]

/-- One field element: `repr.read_le` (32 little-endian bytes) followed by
`Fr::from_repr`, which rejects any encoding not below the modulus.
Field elements are modelled as their canonical representatives in `Nat`. -/
def readField (s : List Nat) : Except WtnsError (Nat × List Nat) := do
  let (bs, rest) ← readBytes 32 s
  let v := fromLEBytes bs
  if v < rBN then pure (v, rest) else .error .fieldOutOfRange

/-- The `for _ in 0..witness_len` decode loop shared by both codec entry
points: `n` consecutive field elements. -/
def readFields : Nat → List Nat → Except WtnsError (List Nat × List Nat)
  | 0, s => .ok ([], s)
  | n + 1, s => do
    let (v, s') ← readField s
    let (vs, s'') ← readFields n s'
    pure (v :: vs, s'')

/-- ASCII bytes of the `"wtns"` magic literal. -/
def wtnsMagic : List Nat := [119, 116, 110, 115]

/-- `circom_circuit::load_witness_from_bin_reader`.  usize/u32 arithmetic is
modelled with release-build (wrapping) semantics: the section-size check
casts the u32 product `witness_len * field_size` to u64 only after it has
wrapped modulo `2^32`. -/
def load_witness_from_bin_reader (s : List Nat) : Except WtnsError (List Nat) := do
  let (magic, s) ← readBytes 4 s
  if magic ≠ wtnsMagic then throw .invalidHeader
  let (version, s) ← readU32 s
  if version > 2 then throw .unsupportedVersion
  let (numSections, s) ← readU32 s
  if numSections ≠ 2 then throw .invalidNumSections
  let (secType, s) ← readU32 s
  if secType ≠ 1 then throw .invalidSectionType
  let (secSize, s) ← readU64 s
  if secSize ≠ 4 + 32 + 4 then throw .invalidSectionLen
  let (fieldSize, s) ← readU32 s
  if fieldSize ≠ 32 then throw .invalidFieldSize
  let (prime, s) ← readBytes fieldSize s
  if prime ≠ primeBytes then throw .invalidPrime
  let (witnessLen, s) ← readU32 s
  let (secType2, s) ← readU32 s
  if secType2 ≠ 2 then throw .invalidSectionType
  let (secSize2, s) ← readU64 s
  if secSize2 ≠ witnessLen * fieldSize % 2 ^ 32 then throw .invalidWitnessSize
  let (result, _) ← readFields witnessLen s
  pure result

/-- `wtns_reader::Header`. -/
structure WtnsHeader where
  field_size : Nat
  prime_size : List Nat
  witness_len : Nat
deriving DecidableEq, Repr

/-- `wtns_reader::WTNSFile`. -/
structure WTNSFile where
  version : Nat
  header : WtnsHeader
  witness : List Nat
deriving DecidableEq, Repr

/-- `wtns_reader::read_header`: field size, modulus bytes, then the section
size check, then the witness length. -/
def read_header (s : List Nat) (size : Nat) : Except WtnsError (WtnsHeader × List Nat) := do
  let (fieldSize, s) ← readU32 s
  let (prime, s) ← readBytes fieldSize s
  if size ≠ 4 + 32 + 4 then throw .invalidSectionLen
  let (wlen, s) ← readU32 s
  pure (⟨fieldSize, prime, wlen⟩, s)

/-- `wtns_reader::read_witness`: the section-size check (with the same
wrapping u32 product as `load_witness_from_bin_reader`) followed by the
decode loop. -/
def read_witness (s : List Nat) (size : Nat) (h : WtnsHeader) :
    Except WtnsError (List Nat × List Nat) := do
  if size ≠ h.witness_len * h.field_size % 2 ^ 32 then throw .invalidWitnessSize
  readFields h.witness_len s

/-- `wtns_reader::read`.  Note that the section count (`_num_sections`) is
read and discarded without validation. -/
def wtns_read (s : List Nat) : Except WtnsError WTNSFile := do
  let (magic, s) ← readBytes 4 s
  if magic ≠ wtnsMagic then throw .invalidHeader
  let (version, s) ← readU32 s
  if version > 2 then throw .unsupportedVersion
  let (_numSections, s) ← readU32 s
  let (secType, s) ← readU32 s
  if secType ≠ 1 then throw .invalidSectionType
  let (secSize, s) ← readU64 s
  let (header, s) ← read_header s secSize
  if header.field_size ≠ 32 then throw .invalidFieldSize
  if header.prime_size ≠ primeBytes then throw .invalidPrime
  let (secType2, s) ← readU32 s
  if secType2 ≠ 2 then throw .invalidSectionType
  let (secSize2, s) ← readU64 s
  let (witness, _) ← read_witness s secSize2 header
  pure ⟨version, header, witness⟩

/-! ## Writer-side encoders and concrete streams -/

/-- 4-byte little-endian encoding. -/
def u32le (v : Nat) : List Nat := toLEBytes 4 v

/-- 8-byte little-endian encoding. -/
def u64le (v : Nat) : List Nat := toLEBytes 8 v

/-- Concatenated 32-byte little-endian field-element encodings
(the data-section payload for a witness list). -/
def fieldPayload (vs : List Nat) : List Nat := (vs.map (toLEBytes 32)).flatten

/-- A two-section wtns stream with version 2, header section
(type 1, size 40, width 32, the supported modulus, witness length `w`)
and data section (type 2, declared size `ss`, payload `payload`). -/
def wtnsStream (ns w ss : Nat) (payload : List Nat) : List Nat :=
  wtnsMagic ++ u32le 2 ++ u32le ns ++ u32le 1 ++ u64le 40 ++ u32le 32 ++ primeBytes
    ++ u32le w ++ u32le 2 ++ u64le ss ++ payload

/-- A stream that is valid in every respect except that its section count
is 3: one witness element, value 0. -/
def c3stream : List Nat := wtnsStream 3 1 32 (toLEBytes 32 0)

/-- A stream whose header declares witness length `2^27` and whose data
section declares byte length 0: the exact product `2^27 * 32 = 2^32`
wraps to 0 in the codec's u32 multiplication, so the size check passes. -/
def c4stream : List Nat := wtnsStream 2 134217728 0 []

/-! # R1CS model and circuit synthesis bridge (`circom_circuit.rs`)

Field elements are a type parameter `F` (instantiated with `Nat`, the
canonical representative, where serialization is involved); a sparse
linear combination is a list of (wire index, coefficient) pairs. -/

/-- `circom_circuit::R1CS`. -/
structure R1CS (F : Type) where
  num_inputs : Nat
  num_aux : Nat
  num_variables : Nat
  constraints : List (List (Nat × F) × List (Nat × F) × List (Nat × F))
deriving DecidableEq, Repr

/-- `circom_circuit::CircomCircuit`. -/
structure CircomCircuit (F : Type) where
  r1cs : R1CS F
  witness : Option (List F)
  wire_mapping : Option (List Nat)
deriving DecidableEq, Repr

/-- Rust slice `l[a..b]`: panics (`none`) unless `a ≤ b ≤ l.length`. -/
def rustSlice {α : Type} (l : List α) (a b : Nat) : Option (List α) :=
  if a ≤ b ∧ b ≤ l.length then some ((l.drop a).take (b - a)) else none

/-- `CircomCircuit::get_public_inputs`.  The outer `Option` is panic-freedom
of the Rust indexing (`w[1..num_inputs]`, `w[*i]`); the inner `Option` is the
function's own return value (`None` when no witness is bound). -/
def get_public_inputs {F : Type} (c : CircomCircuit F) : Option (Option (List F)) :=
  match c.witness with
  | none => some none
  | some w =>
    match c.wire_mapping with
    | none => (rustSlice w 1 c.r1cs.num_inputs).map (fun v => some v)
    | some m => do
      let idxs ← rustSlice m 1 c.r1cs.num_inputs
      let vals ← idxs.mapM (fun i => w[i]?)
      pure (some vals)

/-- Backend variable handles (`bellman::Index`): public inputs and
auxiliary (private) variables are numbered separately. -/
inductive Idx where
  | input (n : Nat)
  | aux (n : Nat)
deriving DecidableEq, Repr

/-- The external constraint-system builder's observable state: public
variable assignments (index 0 preallocated to the constant one), private
variable assignments, and enforced `A*B=C` constraints.  `alloc_input`,
`alloc` and `enforce` append, so stored order is allocation order. -/
structure CS (F : Type) where
  inputs : List F
  auxs : List F
  constraints : List (List (Idx × F) × List (Idx × F) × List (Idx × F))
deriving DecidableEq, Repr

/-- `cs.alloc_input`: appends a public variable. -/
def alloc_input {F : Type} (cs : CS F) (v : F) : CS F :=
  { cs with inputs := cs.inputs ++ [v] }

/-- `cs.alloc`: appends a private variable. -/
def alloc {F : Type} (cs : CS F) (v : F) : CS F :=
  { cs with auxs := cs.auxs ++ [v] }

/-- `cs.enforce`: appends one `A*B=C` constraint. -/
def enforce {F : Type} (cs : CS F) (a b c : List (Idx × F)) : CS F :=
  { cs with constraints := cs.constraints ++ [(a, b, c)] }

/-- The value thunk shared by both allocation loops of `synthesize`
(logical wire index `i`): the placeholder 1 with no witness bound,
otherwise `w[i]` or `w[m[i]]`; `none` models the Rust indexing panic. -/
def wire_value {F : Type} [One F] (c : CircomCircuit F) (i : Nat) : Option F :=
  match c.witness with
  | none => some 1
  | some w =>
    match c.wire_mapping with
    | none => w[i]?
    | some m => m[i]?.bind (fun j => w[j]?)

/-- `make_index` inside `synthesize`. -/
def make_index (num_inputs index : Nat) : Idx :=
  if index < num_inputs then .input index else .aux (index - num_inputs)

/-- `make_lc` inside `synthesize`: fold the term list onto the empty linear
combination, keeping order. -/
def make_lc {F : Type} (num_inputs : Nat) (lc_data : List (Nat × F)) : List (Idx × F) :=
  lc_data.foldl (fun lc t => lc ++ [(make_index num_inputs t.1, t.2)]) []

/-- `CircomCircuit::synthesize`: allocate a public variable per wire in
`1..num_inputs`, a private variable per wire in `0..num_aux` (at logical
index `num_inputs + i`), then enforce every constraint in stored order. -/
def synthesize {F : Type} [One F] (c : CircomCircuit F) (cs : CS F) : Option (CS F) := do
  let cs ← (List.range' 1 (c.r1cs.num_inputs - 1)).foldlM
    (fun cs i => (wire_value c i).bind (fun v => some (alloc_input cs v))) cs
  let cs ← (List.range c.r1cs.num_aux).foldlM
    (fun cs i => (wire_value c (i + c.r1cs.num_inputs)).bind (fun v => some (alloc cs v))) cs
  pure (c.r1cs.constraints.foldl
    (fun cs con => enforce cs (make_lc c.r1cs.num_inputs con.1)
      (make_lc c.r1cs.num_inputs con.2.1) (make_lc c.r1cs.num_inputs con.2.2)) cs)

/-! # Backend parameters, the parameter filter, `prove` -/

/-- A G1 curve point in affine form: the group identity is the point at
infinity (`Bn256::G1Affine::is_zero`), otherwise coordinates `x, y`
(as canonical representatives). -/
structure G1Point where
  infinity : Bool
  x : Nat
  y : Nat
deriving DecidableEq, Repr

/-- A G2 curve point; coordinates live in the quadratic extension with
components `c0, c1`. -/
structure G2Point where
  infinity : Bool
  x_c0 : Nat
  x_c1 : Nat
  y_c0 : Nat
  y_c1 : Nat
deriving DecidableEq, Repr

/-- `CurveAffine::is_zero` for G1. -/
def G1Point.is_zero (p : G1Point) : Bool := p.infinity

/-- `CurveAffine::is_zero` for G2. -/
def G2Point.is_zero (p : G2Point) : Bool := p.infinity

/-- `bellman::groth16::VerifyingKey` (the fields this repository reads). -/
structure VerifyingKey where
  alpha_g1 : G1Point
  beta_g1 : G1Point
  beta_g2 : G2Point
  gamma_g2 : G2Point
  delta_g1 : G1Point
  delta_g2 : G2Point
  ic : List G1Point
deriving DecidableEq, Repr

/-- `bellman::groth16::Parameters`. -/
structure Parameters where
  vk : VerifyingKey
  h : List G1Point
  l : List G1Point
  a : List G1Point
  b_g1 : List G1Point
  b_g2 : List G2Point
deriving DecidableEq, Repr

/-- `circom_circuit::filter_params`: drop group-identity points from
`vk.ic`, `h`, `a`, `b_g1` and `b_g2` (the other tables are untouched). -/
def filter_params (p : Parameters) : Parameters :=
  { p with
    vk := { p.vk with ic := p.vk.ic.filter (fun x => !x.is_zero) },
    h := p.h.filter (fun x => !x.is_zero),
    a := p.a.filter (fun x => !x.is_zero),
    b_g1 := p.b_g1.filter (fun x => !x.is_zero),
    b_g2 := p.b_g2.filter (fun x => !x.is_zero) }

/-- `circom_circuit::prove`.  The backend's `create_random_proof` is an
external collaborator, passed as a function argument.  `prove` borrows the
caller's parameters immutably; the state-passing embedding returns, next to
the proof, the caller-visible value of `params` after the call.  The body
mirrors the source: clone, filter the clone, hand the clone to the backend. -/
def prove {C P : Type} (create_random_proof : C → Parameters → Nat → P)
    (circuit : C) (params : Parameters) (rng : Nat) : P × Parameters :=
  let params2 := params
  let params2 := filter_params params2
  (create_random_proof circuit params2 rng, params)

/-- Wrapping usize subtraction (release-build semantics): the source
subtracts without a guard, so `0 - 1` wraps to `2^64 - 1`. -/
def usizeSub (a b : Nat) : Nat := (a + 2 ^ 64 - b % 2 ^ 64) % 2 ^ 64

/-- The `nPublic` field of `verification_key_json`:
`params.vk.ic.len() - 1`, unguarded. -/
def verification_key_inputs_count (params : Parameters) : Nat :=
  usizeSub params.vk.ic.length 1

/-! # Key serialization (`proving_key_json`) -/

/-- `log2_floor`'s `while (1 << (pow + 1)) <= num` loop, with explicit
fuel (the loop runs at most `log2 num ≤ num` times). -/
def log2_floor_go (num : Nat) : Nat → Nat → Nat
  | 0, pow => pow
  | fuel + 1, pow =>
    if 2 ^ (pow + 1) ≤ num then log2_floor_go num fuel (pow + 1) else pow

/-- `circom_circuit::log2_floor`; `none` models the `assert!(num > 0)`
panic. -/
def log2_floor (num : Nat) : Option Nat :=
  if 0 < num then some (log2_floor_go num num 0) else none

/-- `domainBits` as computed by `proving_key_json`:
`log2_floor(constraints.len() + num_inputs) + 1`. -/
def domain_bits {F : Type} (r : R1CS F) : Option Nat :=
  (log2_floor (r.constraints.length + r.num_inputs)).map (fun b => b + 1)

/-- `domainSize` as computed by `proving_key_json`: `1 << domain_bits`. -/
def domain_size {F : Type} (r : R1CS F) : Option Nat :=
  (domain_bits r).map (fun b => 2 ^ b)

/-- Modelled from the spec: `utils::repr_to_big` (`src/utils.rs` is not
among the provided sources); per §4.4/§8 field elements and curve
coordinates serialize as the base-10 string of the canonical unsigned
representative, with no prefix and no leading zeros. -/
def repr_to_big (n : Nat) : String := Nat.repr n

/-- A `BTreeMap<String, String>` as an ordered association list with
unique keys in increasing string order. -/
def BTMap : Type := List (String × String)

/-- `BTreeMap::insert`: replace the value at an existing key, otherwise
insert at the ordered position. -/
def btInsert (k v : String) : BTMap → BTMap
  | [] => [(k, v)]
  | (k', v') :: rest =>
    if k = k' then (k, v) :: rest
    else if k < k' then (k, v) :: (k', v') :: rest
    else (k', v') :: btInsert k v rest

/-- `BTreeMap::get`. -/
def btLookup (m : BTMap) (k : String) : Option String :=
  match m with
  | [] => none
  | (k', v) :: rest => if k = k' then some v else btLookup rest k

/-- `pols_a[item.0].insert(c.to_string(), repr_to_big(item.1))` for one
term: `none` models the panic when the wire index is out of range. -/
def insertTerm (c : Nat) (ps : List BTMap) (t : Nat × Nat) : Option (List BTMap) :=
  if h : t.1 < ps.length then
    some (ps.set t.1 (btInsert (Nat.repr c) (repr_to_big t.2) (ps.get ⟨t.1, h⟩)))
  else none

/-- The inner `for item in constraints[c]` loop of `proving_key_json`,
for one linear combination of constraint `c`. -/
def insertLC (c : Nat) (ps : List BTMap) (terms : List (Nat × Nat)) : Option (List BTMap) :=
  terms.foldlM (insertTerm c) ps

/-- The outer `for c in 0..constraints.len()` transposition loop of
`proving_key_json`, carrying the running constraint index.  (The Rust loop
updates the three independent tables in one pass; each table is built by
one run of this function over its projection of the constraint list.) -/
def transposeLCs : Nat → List BTMap → List (List (Nat × Nat)) → Option (List BTMap)
  | _, ps, [] => some ps
  | cIdx, ps, lc :: rest => do transposeLCs (cIdx + 1) (← insertLC cIdx ps lc) rest

/-- The `for i in 0..num_inputs` loop appending the synthetic unit entries
`pols_a[i].insert((constraints.len() + i).to_string(), "1")`. -/
def addSynthetic (nC nI : Nat) (ps : List BTMap) : Option (List BTMap) :=
  (List.range nI).foldlM (fun ps i =>
    if h : i < ps.length then
      some (ps.set i (btInsert (Nat.repr (nC + i)) "1" (ps.get ⟨i, h⟩)))
    else none) ps

/-- `vec![BTreeMap::new(); num_aux + num_inputs]`. -/
def pols_init (n : Nat) : List BTMap := List.replicate n []

/-- The `polsA`/`polsB`/`polsC` tables of `proving_key_json`: transpose
each projection of the constraint list, then append the synthetic unit
entries to `polsA`. -/
def proving_key_pols (r : R1CS Nat) : Option (List BTMap × List BTMap × List BTMap) := do
  let n := r.num_aux + r.num_inputs
  let pa ← transposeLCs 0 (pols_init n) (r.constraints.map (fun t => t.1))
  let pb ← transposeLCs 0 (pols_init n) (r.constraints.map (fun t => t.2.1))
  let pc ← transposeLCs 0 (pols_init n) (r.constraints.map (fun t => t.2.2))
  let pa ← addSynthetic r.constraints.length r.num_inputs pa
  pure (pa, pb, pc)

/-! # Verifier contract generation (`create_verifier_sol`) -/

/-- The `p1_to_str` closure: the identity point renders as the placeholder
string, any other point as its decimal coordinate pair. -/
def p1_to_str (p : G1Point) : String :=
  if p.is_zero then "<POINT_AT_INFINITY>"
  else "uint256(" ++ repr_to_big p.x ++ "), uint256(" ++ repr_to_big p.y ++ ")"

/-- The `p2_to_str` closure: placeholder for the identity point, otherwise
two decimal pairs with the non-constant extension component first. -/
def p2_to_str (p : G2Point) : String :=
  if p.is_zero then "<POINT_AT_INFINITY>"
  else "[uint256(" ++ repr_to_big p.x_c1 ++ "), uint256(" ++ repr_to_big p.x_c0
    ++ ")], [uint256(" ++ repr_to_big p.y_c1 ++ "), uint256(" ++ repr_to_big p.y_c0 ++ ")]"

/-- One iteration of the `vi` accumulation loop in `create_verifier_sol`. -/
def ic_line (vi : String) (i : Nat) (p : G1Point) : String :=
  vi ++ (if vi.isEmpty then "" else "        ") ++ "vk.IC[" ++ Nat.repr i
    ++ "] = Pairing.G1Point(" ++ p1_to_str p ++ ");\n"

/-- The `for i in 0..params.vk.ic.len()` loop of `create_verifier_sol`:
one assignment statement per input-commitment point. -/
def ic_points_str (ic : List G1Point) : String :=
  ic.enum.foldl (fun vi t => ic_line vi t.1 t.2) ""

/-- The `<%vk_input_length%>` substitution value of `create_verifier_sol`:
`params.vk.ic.len() - 1`, unguarded. -/
def vk_input_length (params : Parameters) : Nat :=
  usizeSub params.vk.ic.length 1

/-- `circom_circuit::create_verifier_sol`, with the contract template
(read from `verifier_groth.sol`, which is not among the provided sources)
passed in as a parameter.  Pure placeholder substitution. -/
def create_verifier_sol (template : String) (params : Parameters) : String :=
  let t := template.replace "<%vk_alfa1%>" (p1_to_str params.vk.alpha_g1)
  let t := t.replace "<%vk_beta2%>" (p2_to_str params.vk.beta_g2)
  let t := t.replace "<%vk_gamma2%>" (p2_to_str params.vk.gamma_g2)
  let t := t.replace "<%vk_delta2%>" (p2_to_str params.vk.delta_g2)
  let t := t.replace "<%vk_ic_length%>" (Nat.repr params.vk.ic.length)
  let t := t.replace "<%vk_input_length%>" (Nat.repr (vk_input_length params))
  t.replace "<%vk_ic_pts%>" (ic_points_str params.vk.ic)

/-! # Concrete instances used by witnesses and counterexamples -/

/-- The G1 identity point. -/
def zeroG1 : G1Point := ⟨true, 0, 0⟩

/-- A non-identity G1 point. -/
def unitG1 : G1Point := ⟨false, 1, 2⟩

/-- The G2 identity point. -/
def zeroG2 : G2Point := ⟨true, 0, 0, 0, 0⟩

/-- A non-identity G2 point. -/
def unitG2 : G2Point := ⟨false, 1, 2, 3, 4⟩

/-- Parameters whose six point tables each hold exactly one identity
point (`l` included, to observe that `l` is not filtered). -/
def exAllZero : Parameters :=
  { vk := ⟨unitG1, unitG1, unitG2, unitG2, unitG1, unitG2, [zeroG1]⟩,
    h := [zeroG1], l := [zeroG1], a := [zeroG1], b_g1 := [zeroG1], b_g2 := [zeroG2] }

/-- An R1CS with 10 constraints and `num_inputs = 3` (the spec's concrete
`domainBits` example). -/
def exR1CS10 : R1CS Nat :=
  ⟨3, 0, 3, List.replicate 10 ([], [], [])⟩

/-- A circuit with 2 public wires, 1 auxiliary wire, a bound witness and
no wire mapping, used to instantiate the synthesis and public-input
theorems. -/
def exCircuit : CircomCircuit Nat :=
  { r1cs := ⟨2, 1, 3, [([(1, 2)], [(2, 3)], [(0, 6)])]⟩,
    witness := some [1, 5, 7],
    wire_mapping := none }

/-- The same circuit with a non-identity wire mapping. -/
def exCircuitMapped : CircomCircuit Nat :=
  { r1cs := ⟨2, 1, 3, [([(1, 2)], [(2, 3)], [(0, 6)])]⟩,
    witness := some [1, 5, 7],
    wire_mapping := some [0, 2, 1] }

/-- The same circuit with no witness bound (the parameter-generation
state). -/
def exCircuitNoW : CircomCircuit Nat :=
  { r1cs := ⟨2, 1, 3, [([(1, 2)], [(2, 3)], [(0, 6)])]⟩,
    witness := none,
    wire_mapping := none }

/-- An R1CS exercising the transposition: 2 inputs, 2 aux wires, two
constraints touching several wires. -/
def exR1CSPols : R1CS Nat :=
  ⟨2, 2, 4, [([(0, 7), (2, 9)], [(1, 4)], [(3, 5)]),
             ([(1, 11)], [(2, 13), (3, 17)], [(0, 19)])]⟩

/-- The per-wire map at index `u` of a table of `BTreeMap`s (the empty
map beyond the end, mirroring that no map lives there). -/
def mapAt (ps : List BTMap) (u : Nat) : BTMap := ps.getD u []

/-- Statement helper: the coefficient of the *last* term of `terms` whose
wire index is `u` (BTreeMap insertion is last-write-wins for a repeated
key, the behaviour §9 of the spec records for duplicate wire indices). -/
def lastCoeff (terms : List (Nat × Nat)) (u : Nat) : Option Nat :=
  terms.foldl (fun acc t => if t.1 = u then some t.2 else acc) none

/-- Statement helper: `needle` occurs contiguously inside `hay`. -/
def strContains (hay needle : String) : Prop := needle.data <:+: hay.data

/-- Statement helper for the decimal-rendering injectivity proof: the
digit characters of `n` in most-significant-first order. -/
def digitsStr (n : Nat) : List Char :=
  if n < 10 then [Nat.digitChar n]
  else digitsStr (n / 10) ++ [Nat.digitChar (n % 10)]
decreasing_by exact Nat.div_lt_self (by omega) (by norm_num)

/-- Everything after the section-count field of a small valid stream
(header section for one witness element, data section holding the
encoding of 0). -/
def wtnsTail : List Nat :=
  u32le 1 ++ u64le 40 ++ u32le 32 ++ primeBytes ++ u32le 1 ++ u32le 2 ++ u64le 32
    ++ toLEBytes 32 0

/-! # Byte-stream round-trip lemmas -/

theorem toLEBytes_length (n v : Nat) : (toLEBytes n v).length = n := by
  induction n generalizing v with
  | zero => rfl
  | succ n ih => simp [toLEBytes, ih]

theorem fromLEBytes_toLEBytes (n v : Nat) :
    fromLEBytes (toLEBytes n v) = v % 2 ^ (8 * n) := by
  induction n generalizing v with
  | zero => simp [toLEBytes, fromLEBytes, Nat.mod_one]
  | succ n ih =>
    have h : 8 * (n + 1) = 8 + 8 * n := by ring
    rw [toLEBytes, h, pow_add]
    show v % 256 + 256 * fromLEBytes (toLEBytes n (v / 256)) = v % (2 ^ 8 * 2 ^ (8 * n))
    rw [ih]
    exact (Nat.mod_mul).symm

theorem readBytes_append {l r : List Nat} {n : Nat} (h : l.length = n) :
    readBytes n (l ++ r) = .ok (l, r) := by
  subst h
  simp [readBytes, List.take_left, List.drop_left]

theorem exbind_ok {α β : Type} (a : α) (f : α → Except WtnsError β) :
    (Except.ok a >>= f) = f a := rfl

theorem exbind_err {α β : Type} (e : WtnsError) (f : α → Except WtnsError β) :
    ((Except.error e : Except WtnsError α) >>= f) = .error e := rfl

theorem expure_bind {α β : Type} (a : α) (f : α → Except WtnsError β) :
    ((pure a : Except WtnsError α) >>= f) = f a := rfl

theorem exthrow {α : Type} (e : WtnsError) :
    (throw e : Except WtnsError α) = .error e := rfl

theorem readU32_cons {v : Nat} (hv : v < 2 ^ 32) (r : List Nat) :
    readU32 (u32le v ++ r) = .ok (v, r) := by
  rw [readU32, u32le, readBytes_append (toLEBytes_length 4 v)]
  simp only [exbind_ok]
  rw [fromLEBytes_toLEBytes, Nat.mod_eq_of_lt (lt_of_lt_of_le hv (by norm_num))]
  rfl

theorem readU64_cons {v : Nat} (hv : v < 2 ^ 64) (r : List Nat) :
    readU64 (u64le v ++ r) = .ok (v, r) := by
  rw [readU64, u64le, readBytes_append (toLEBytes_length 8 v)]
  simp only [exbind_ok]
  rw [fromLEBytes_toLEBytes, Nat.mod_eq_of_lt (lt_of_lt_of_le hv (by norm_num))]
  rfl

theorem rBN_lt_two_pow : rBN < 2 ^ 256 := by norm_num [rBN]

theorem readField_ok {v : Nat} (h256 : v < 2 ^ 256) (hv : v < rBN) (r : List Nat) :
    readField (toLEBytes 32 v ++ r) = .ok (v, r) := by
  rw [readField, readBytes_append (toLEBytes_length 32 v)]
  simp only [exbind_ok]
  rw [fromLEBytes_toLEBytes, Nat.mod_eq_of_lt (lt_of_lt_of_le h256 (by norm_num)), if_pos hv]
  rfl

theorem readField_bad {v : Nat} (h256 : v < 2 ^ 256) (hv : rBN ≤ v) (r : List Nat) :
    readField (toLEBytes 32 v ++ r) = .error .fieldOutOfRange := by
  rw [readField, readBytes_append (toLEBytes_length 32 v)]
  simp only [exbind_ok]
  rw [fromLEBytes_toLEBytes, Nat.mod_eq_of_lt (lt_of_lt_of_le h256 (by norm_num)),
    if_neg (not_lt.mpr hv)]

theorem readFields_ok {vs : List Nat} (h : ∀ v ∈ vs, v < rBN) (r : List Nat) :
    readFields vs.length (fieldPayload vs ++ r) = .ok (vs, r) := by
  induction vs generalizing r with
  | nil => rfl
  | cons v vs ih =>
    have hv : v < rBN := h v (List.mem_cons_self v vs)
    rw [List.length_cons, readFields,
      show fieldPayload (v :: vs) ++ r = toLEBytes 32 v ++ (fieldPayload vs ++ r) by
        simp [fieldPayload],
      readField_ok (lt_trans hv rBN_lt_two_pow) hv]
    simp only [exbind_ok]
    rw [ih (fun x hx => h x (List.mem_cons_of_mem v hx))]
    rfl

theorem readFields_bad {pre : List Nat} (hpre : ∀ v ∈ pre, v < rBN) {bad : Nat}
    (h256 : bad < 2 ^ 256) (hbad : rBN ≤ bad) (post r : List Nat) :
    readFields (pre ++ bad :: post).length (fieldPayload (pre ++ bad :: post) ++ r)
      = .error .fieldOutOfRange := by
  induction pre generalizing r with
  | nil =>
    rw [List.nil_append, List.length_cons, readFields,
      show fieldPayload (bad :: post) ++ r = toLEBytes 32 bad ++ (fieldPayload post ++ r) by
        simp [fieldPayload],
      readField_bad h256 hbad]
    rfl
  | cons v pre ih =>
    have hv : v < rBN := hpre v (List.mem_cons_self v pre)
    rw [List.cons_append, List.length_cons, readFields,
      show fieldPayload (v :: (pre ++ bad :: post)) ++ r
          = toLEBytes 32 v ++ (fieldPayload (pre ++ bad :: post) ++ r) by
        simp [fieldPayload],
      readField_ok (lt_trans hv rBN_lt_two_pow) hv]
    simp only [exbind_ok]
    rw [ih (fun x hx => hpre x (List.mem_cons_of_mem v hx))]
    rfl

/-- Parsing a well-formed two-section stream reaches the data-section size
check, which compares the declared size against the wrapped u32 product. -/
theorem load_wtnsStream (w ss : Nat) (payload : List Nat)
    (hw : w < 2 ^ 32) (hss : ss < 2 ^ 64) :
    load_witness_from_bin_reader (wtnsStream 2 w ss payload)
      = if ss = w * 32 % 2 ^ 32 then (readFields w payload >>= fun p => pure p.1)
        else .error .invalidWitnessSize := by
  have h2 : (2:Nat) < 2 ^ 32 := by norm_num
  have h1 : (1:Nat) < 2 ^ 32 := by norm_num
  have h32 : (32:Nat) < 2 ^ 32 := by norm_num
  have h40 : (40:Nat) < 2 ^ 64 := by norm_num
  simp only [wtnsStream, List.append_assoc]
  rw [load_witness_from_bin_reader]
  rw [readBytes_append (show (wtnsMagic).length = 4 from rfl)]
  simp only [exbind_ok]
  simp [readU32_cons h2, readU32_cons h1, readU32_cons h32, readU32_cons hw,
    readU64_cons h40, readU64_cons hss,
    readBytes_append (show primeBytes.length = 32 from rfl),
    exbind_ok, expure_bind]
  split <;> rfl

theorem load_rejects_bad_num_sections (v ns : Nat) (rest : List Nat)
    (hv : v < 2 ^ 32) (hns : ns < 2 ^ 32) (hvle : v ≤ 2) (hns2 : ns ≠ 2) :
    load_witness_from_bin_reader (wtnsMagic ++ u32le v ++ u32le ns ++ rest)
      = .error .invalidNumSections := by
  rw [load_witness_from_bin_reader]
  simp only [List.append_assoc]
  rw [readBytes_append (show (wtnsMagic).length = 4 from rfl)]
  simp only [exbind_ok]
  simp [readU32_cons hv, readU32_cons hns, not_lt.mpr hvle, hns2, exbind_ok, exbind_err,
    exthrow]

theorem load_ok_num_sections (v ns : Nat) (rest out : List Nat)
    (hv : v < 2 ^ 32) (hns : ns < 2 ^ 32)
    (h : load_witness_from_bin_reader (wtnsMagic ++ u32le v ++ u32le ns ++ rest) = .ok out) :
    ns = 2 := by
  by_contra hne
  by_cases hvle : v ≤ 2
  · rw [load_rejects_bad_num_sections v ns rest hv hns hvle hne] at h
    exact Except.noConfusion h
  · rw [load_witness_from_bin_reader] at h
    simp only [List.append_assoc] at h
    rw [readBytes_append (show (wtnsMagic).length = 4 from rfl)] at h
    simp only [exbind_ok] at h
    rw [readU32_cons hv] at h
    simp [not_le.mp hvle, exbind_ok, exbind_err, exthrow] at h

theorem wtns_read_ignores_num_sections (v ns ns' : Nat) (rest : List Nat)
    (hv : v < 2 ^ 32) (hns : ns < 2 ^ 32) (hns' : ns' < 2 ^ 32) :
    wtns_read (wtnsMagic ++ u32le v ++ u32le ns ++ rest)
      = wtns_read (wtnsMagic ++ u32le v ++ u32le ns' ++ rest) := by
  rw [wtns_read, wtns_read]
  simp only [List.append_assoc, readBytes_append (show (wtnsMagic).length = 4 from rfl),
    exbind_ok, readU32_cons hv, readU32_cons hns, readU32_cons hns']

/-! # Claim C3 -/

/-- **C3, counterexample.**  `c3stream` is a stream whose section-count
field holds 3, yet `wtns_reader::read` decodes it successfully (to a
one-element witness) instead of failing with a format error; the claim's
"only streams with section count exactly 2 can decode successfully" is
false of the codec entry point `wtns_read`.  (`load_witness_from_bin_reader`
does reject the very same stream.) -/
theorem c3_counterexample :
    fromLEBytes ((c3stream.drop 8).take 4) = 3 ∧
    wtns_read c3stream = .ok ⟨2, ⟨32, primeBytes, 1⟩, [0]⟩ ∧
    load_witness_from_bin_reader c3stream = .error .invalidNumSections :=
  ⟨rfl, rfl, rfl⟩

/-- **C3, amended.**  The section-count validation exists only in
`load_witness_from_bin_reader`: (1) it fails with the section-count format
error whenever the count field differs from 2, (2) it succeeds only when
the count field is exactly 2, while (3) `wtns_reader::read` reads the
section count and ignores it, so its result is independent of that field. -/
theorem c3_section_count :
    (∀ v ns : Nat, ∀ rest : List Nat, v < 2 ^ 32 → ns < 2 ^ 32 → v ≤ 2 → ns ≠ 2 →
      load_witness_from_bin_reader (wtnsMagic ++ u32le v ++ u32le ns ++ rest)
        = .error .invalidNumSections) ∧
    (∀ v ns : Nat, ∀ rest out : List Nat, v < 2 ^ 32 → ns < 2 ^ 32 →
      load_witness_from_bin_reader (wtnsMagic ++ u32le v ++ u32le ns ++ rest) = .ok out →
      ns = 2) ∧
    (∀ v ns ns' : Nat, ∀ rest : List Nat, v < 2 ^ 32 → ns < 2 ^ 32 → ns' < 2 ^ 32 →
      wtns_read (wtnsMagic ++ u32le v ++ u32le ns ++ rest)
        = wtns_read (wtnsMagic ++ u32le v ++ u32le ns' ++ rest)) :=
  ⟨load_rejects_bad_num_sections,
   fun v ns rest out hv hns h => load_ok_num_sections v ns rest out hv hns h,
   wtns_read_ignores_num_sections⟩

/-- **C3, witness.**  The amended theorem instantiated on concrete streams. -/
theorem c3_section_count_witness :
    ((1:Nat) < 2 ^ 32 ∧ (3:Nat) < 2 ^ 32 ∧ (1:Nat) ≤ 2 ∧ (3:Nat) ≠ 2 ∧
      load_witness_from_bin_reader (wtnsMagic ++ u32le 1 ++ u32le 3 ++ ([] : List Nat))
        = .error .invalidNumSections) ∧
    (load_witness_from_bin_reader (wtnsMagic ++ u32le 2 ++ u32le 2 ++ wtnsTail)
        = .ok [0] ∧ (2:Nat) = 2) ∧
    wtns_read (wtnsMagic ++ u32le 2 ++ u32le 3 ++ wtnsTail)
      = wtns_read (wtnsMagic ++ u32le 2 ++ u32le 5 ++ wtnsTail) :=
  ⟨⟨by norm_num, by norm_num, by norm_num, by norm_num,
    c3_section_count.1 1 3 [] (by norm_num) (by norm_num) (by norm_num) (by norm_num)⟩,
   ⟨rfl, c3_section_count.2.1 2 2 wtnsTail [0] (by norm_num) (by norm_num) rfl⟩,
   c3_section_count.2.2 2 3 5 wtnsTail (by norm_num) (by norm_num) (by norm_num)⟩

/-! # Claim C4 -/

/-- **C4, counterexample.**  `c4stream` declares witness length
`W = 2^27` (with field width 32) and a data-section byte length of 0.
The exact product is `W * 32 = 2^32 ≠ 0`, so per the claim the codec
should fail with the section-size format error; instead the u32
multiplication wraps to 0, the size check passes, and decoding fails
later with an EOF read error. -/
theorem c4_counterexample :
    load_witness_from_bin_reader c4stream = .error .eof ∧
    fromLEBytes ((c4stream.drop 60).take 4) = 134217728 ∧
    fromLEBytes ((c4stream.drop 68).take 8) = 0 ∧
    (0 : Nat) ≠ 134217728 * 32 :=
  ⟨rfl, rfl, rfl, by norm_num⟩

/-- **C4, amended.**  The data-section size check compares the declared
byte length against `W * 32` computed in wrapping 32-bit arithmetic, i.e.
`W * 32 % 2^32`: (1) a mismatching declared length fails with the
section-size format error; (2) a matching declared length decodes exactly
`W` consecutive 32-byte little-endian field elements; (3) an encoding at
or above the field modulus fails decoding; (4) `wtns_reader::read_witness`
applies the same wrapped-product check. -/
theorem c4_section_size :
    (∀ w ss : Nat, ∀ payload : List Nat, w < 2 ^ 32 → ss < 2 ^ 64 →
      ss ≠ w * 32 % 2 ^ 32 →
      load_witness_from_bin_reader (wtnsStream 2 w ss payload)
        = .error .invalidWitnessSize) ∧
    (∀ vs rest : List Nat, (∀ v ∈ vs, v < rBN) → vs.length < 2 ^ 32 →
      load_witness_from_bin_reader
        (wtnsStream 2 vs.length (vs.length * 32 % 2 ^ 32) (fieldPayload vs ++ rest))
        = .ok vs) ∧
    (∀ pre post rest : List Nat, ∀ bad : Nat, (∀ v ∈ pre, v < rBN) →
      bad < 2 ^ 256 → rBN ≤ bad → (pre ++ bad :: post).length < 2 ^ 32 →
      load_witness_from_bin_reader
        (wtnsStream 2 (pre ++ bad :: post).length
          ((pre ++ bad :: post).length * 32 % 2 ^ 32)
          (fieldPayload (pre ++ bad :: post) ++ rest))
        = .error .fieldOutOfRange) ∧
    (∀ s : List Nat, ∀ size : Nat, ∀ hd : WtnsHeader,
      size ≠ hd.witness_len * hd.field_size % 2 ^ 32 →
      read_witness s size hd = .error .invalidWitnessSize) := by
  have hmodlt : ∀ x : Nat, x * 32 % 2 ^ 32 < 2 ^ 64 :=
    fun x => lt_of_lt_of_le (Nat.mod_lt _ (by norm_num)) (by norm_num)
  refine ⟨?_, ?_, ?_, ?_⟩
  · intro w ss payload hw hss hne
    rw [load_wtnsStream w ss payload hw hss, if_neg hne]
  · intro vs rest hvs hlen
    rw [load_wtnsStream vs.length _ _ hlen (hmodlt vs.length), if_pos rfl,
      readFields_ok hvs rest]
    rfl
  · intro pre post rest bad hpre h256 hbad hlen
    rw [load_wtnsStream _ _ _ hlen (hmodlt _), if_pos rfl,
      readFields_bad hpre h256 hbad post rest]
    rfl
  · intro s size hd hne
    rw [read_witness, if_pos hne]
    rfl

/-- **C4, witness.**  The amended theorem instantiated on concrete streams:
a mismatching size, a valid two-element payload, an out-of-range encoding
(the modulus itself), and a bare `read_witness` size mismatch. -/
theorem c4_section_size_witness :
    ((1:Nat) < 2 ^ 32 ∧ (0:Nat) < 2 ^ 64 ∧ (0:Nat) ≠ 1 * 32 % 2 ^ 32 ∧
      load_witness_from_bin_reader (wtnsStream 2 1 0 []) = .error .invalidWitnessSize) ∧
    ((∀ v ∈ ([0, 1] : List Nat), v < rBN) ∧
      load_witness_from_bin_reader
        (wtnsStream 2 ([0, 1] : List Nat).length (([0, 1] : List Nat).length * 32 % 2 ^ 32)
          (fieldPayload [0, 1] ++ [])) = .ok [0, 1]) ∧
    (rBN < 2 ^ 256 ∧ rBN ≤ rBN ∧
      load_witness_from_bin_reader
        (wtnsStream 2 (([] : List Nat) ++ rBN :: []).length
          ((([] : List Nat) ++ rBN :: []).length * 32 % 2 ^ 32)
          (fieldPayload (([] : List Nat) ++ rBN :: []) ++ []))
        = .error .fieldOutOfRange) ∧
    ((1:Nat) ≠ (⟨32, [], 1⟩ : WtnsHeader).witness_len * (⟨32, [], 1⟩ : WtnsHeader).field_size % 2 ^ 32 ∧
      read_witness [] 1 ⟨32, [], 1⟩ = .error .invalidWitnessSize) :=
  ⟨⟨by norm_num, by norm_num, by norm_num,
    c4_section_size.1 1 0 [] (by norm_num) (by norm_num) (by norm_num)⟩,
   ⟨by simp [rBN], c4_section_size.2.1 [0, 1] [] (by simp [rBN]) (by norm_num)⟩,
   ⟨rBN_lt_two_pow, le_refl rBN,
    c4_section_size.2.2.1 [] [] [] rBN (by simp) rBN_lt_two_pow (le_refl rBN) (by norm_num)⟩,
   ⟨by norm_num, c4_section_size.2.2.2 [] 1 ⟨32, [], 1⟩ (by norm_num)⟩⟩

/-! # Claim C2 -/

theorem mapM_getElem_spec {F : Type} (w : List F) :
    ∀ l : List Nat, (∀ j ∈ l, j < w.length) →
      ∃ out : List F, l.mapM (fun i => w[i]?) = some out ∧ out.length = l.length ∧
        ∀ k : Nat, out[k]? = (l[k]?.bind fun i => w[i]?)
  | [], _ => ⟨[], rfl, rfl, fun k => by cases k <;> rfl⟩
  | j :: l, h => by
    have hj : j < w.length := h j (List.mem_cons_self j l)
    have hv : w[j]? = some (w.get ⟨j, hj⟩) := by
      rw [List.getElem?_eq_getElem hj, List.get_eq_getElem]
    obtain ⟨out, hout, hlen, hget⟩ :=
      mapM_getElem_spec w l (fun x hx => h x (List.mem_cons_of_mem j hx))
    refine ⟨w.get ⟨j, hj⟩ :: out, ?_, by simp [hlen], ?_⟩
    · rw [List.mapM_cons, hv, hout]; rfl
    · intro k
      cases k with
      | zero => simp [hv]
      | succ k => simpa using hget k

/-- **C2.**  `get_public_inputs` returns the absent value (not an error)
when no witness is bound; with a witness bound it returns exactly
`num_inputs - 1` elements taken from wire positions `[1, num_inputs)`:
under the identity mapping element `i - 1` is `witness[i]`, and under a
mapping `m` element `i - 1` is `witness[m[i]]`. -/
theorem c2_get_public_inputs : ∀ (F : Type) (c : CircomCircuit F),
    (c.witness = none → get_public_inputs c = some none) ∧
    (∀ w : List F, c.witness = some w → c.wire_mapping = none →
      1 ≤ c.r1cs.num_inputs → c.r1cs.num_inputs ≤ w.length →
      ∃ out : List F, get_public_inputs c = some (some out) ∧
        out.length = c.r1cs.num_inputs - 1 ∧
        ∀ i : Nat, 1 ≤ i → i < c.r1cs.num_inputs → out[i - 1]? = w[i]?) ∧
    (∀ (w : List F) (m : List Nat), c.witness = some w → c.wire_mapping = some m →
      1 ≤ c.r1cs.num_inputs → c.r1cs.num_inputs ≤ m.length →
      (∀ j ∈ m, j < w.length) →
      ∃ out : List F, get_public_inputs c = some (some out) ∧
        out.length = c.r1cs.num_inputs - 1 ∧
        ∀ i : Nat, 1 ≤ i → i < c.r1cs.num_inputs →
          out[i - 1]? = (m[i]?.bind fun j => w[j]?)) := by
  intro F c
  refine ⟨?_, ?_, ?_⟩
  · intro h
    simp [get_public_inputs, h]
  · intro w hw hm h1 hle
    simp only [get_public_inputs, hw, hm]
    rw [rustSlice, if_pos ⟨h1, hle⟩]
    refine ⟨(w.drop 1).take (c.r1cs.num_inputs - 1), rfl, ?_, ?_⟩
    · simp only [List.length_take, List.length_drop]
      omega
    · intro i h1i hlt
      rw [List.getElem?_take_of_lt (by omega), List.getElem?_drop,
        show 1 + (i - 1) = i by omega]
  · intro w m hw hm h1 hle hmw
    simp only [get_public_inputs, hw, hm]
    rw [rustSlice, if_pos ⟨h1, hle⟩]
    have hsub : ∀ j ∈ (m.drop 1).take (c.r1cs.num_inputs - 1), j < w.length := by
      intro j hj
      exact hmw j (List.mem_of_mem_drop (List.mem_of_mem_take hj))
    obtain ⟨out, hout, hlen, hget⟩ :=
      mapM_getElem_spec w ((m.drop 1).take (c.r1cs.num_inputs - 1)) hsub
    refine ⟨out, ?_, ?_, ?_⟩
    · simp only [Option.bind_eq_bind, Option.some_bind, hout]
      rfl
    · rw [hlen]
      simp only [List.length_take, List.length_drop]
      omega
    · intro i h1i hlt
      rw [hget (i - 1), List.getElem?_take_of_lt (by omega), List.getElem?_drop,
        show 1 + (i - 1) = i by omega]

/-- **C2, witness.**  The theorem instantiated at an unbound circuit, the
identity-mapped circuit and the mapped circuit. -/
theorem c2_get_public_inputs_witness :
    (exCircuitNoW.witness = none ∧ get_public_inputs exCircuitNoW = some none) ∧
    (exCircuit.witness = some [1, 5, 7] ∧ exCircuit.wire_mapping = none ∧
      1 ≤ exCircuit.r1cs.num_inputs ∧
      exCircuit.r1cs.num_inputs ≤ ([1, 5, 7] : List Nat).length ∧
      ∃ out : List Nat, get_public_inputs exCircuit = some (some out) ∧
        out.length = exCircuit.r1cs.num_inputs - 1 ∧
        ∀ i : Nat, 1 ≤ i → i < exCircuit.r1cs.num_inputs →
          out[i - 1]? = ([1, 5, 7] : List Nat)[i]?) ∧
    (exCircuitMapped.witness = some [1, 5, 7] ∧
      exCircuitMapped.wire_mapping = some [0, 2, 1] ∧
      1 ≤ exCircuitMapped.r1cs.num_inputs ∧
      exCircuitMapped.r1cs.num_inputs ≤ ([0, 2, 1] : List Nat).length ∧
      (∀ j ∈ ([0, 2, 1] : List Nat), j < ([1, 5, 7] : List Nat).length) ∧
      ∃ out : List Nat, get_public_inputs exCircuitMapped = some (some out) ∧
        out.length = exCircuitMapped.r1cs.num_inputs - 1 ∧
        ∀ i : Nat, 1 ≤ i → i < exCircuitMapped.r1cs.num_inputs →
          out[i - 1]? = (([0, 2, 1] : List Nat)[i]?.bind fun j => ([1, 5, 7] : List Nat)[j]?)) :=
  ⟨⟨rfl, (c2_get_public_inputs Nat exCircuitNoW).1 rfl⟩,
   ⟨rfl, rfl, by decide, by decide,
    (c2_get_public_inputs Nat exCircuit).2.1 [1, 5, 7] rfl rfl (by decide) (by decide)⟩,
   ⟨rfl, rfl, by decide, by decide, by decide,
    (c2_get_public_inputs Nat exCircuitMapped).2.2 [1, 5, 7] [0, 2, 1] rfl rfl
      (by decide) (by decide) (by decide)⟩⟩

/-! # Claim C1 -/

theorem foldl_append_eq_map {α β : Type} (f : α → β) :
    ∀ (l : List α) (acc : List β),
      l.foldl (fun lc t => lc ++ [f t]) acc = acc ++ l.map f
  | [], acc => by simp
  | a :: l, acc => by
    simp only [List.foldl_cons, List.map_cons]
    rw [foldl_append_eq_map f l (acc ++ [f a])]
    simp

theorem make_lc_eq_map {F : Type} (nI : Nat) (terms : List (Nat × F)) :
    make_lc nI terms = terms.map (fun t => (make_index nI t.1, t.2)) := by
  rw [make_lc, foldl_append_eq_map]
  rfl

theorem foldl_enforce {F : Type} (nI : Nat) :
    ∀ (cons : List (List (Nat × F) × List (Nat × F) × List (Nat × F))) (cs : CS F),
      cons.foldl (fun cs con => enforce cs (make_lc nI con.1)
          (make_lc nI con.2.1) (make_lc nI con.2.2)) cs
        = { cs with constraints := cs.constraints ++ cons.map (fun con =>
            (make_lc nI con.1, make_lc nI con.2.1, make_lc nI con.2.2)) }
  | [], cs => by simp
  | con :: cons, cs => by
    simp only [List.foldl_cons, List.map_cons]
    rw [foldl_enforce nI cons]
    simp [enforce]

theorem foldlM_alloc_input {F : Type} [One F] (c : CircomCircuit F) (g : Nat → F) :
    ∀ (l : List Nat), (∀ i ∈ l, wire_value c i = some (g i)) →
      ∀ cs : CS F,
        l.foldlM (fun cs i => (wire_value c i).bind (fun v => some (alloc_input cs v))) cs
          = some { cs with inputs := cs.inputs ++ l.map g }
  | [], _, cs => by simp
  | a :: l, h, cs => by
    rw [List.foldlM_cons, h a (List.mem_cons_self a l)]
    simp only [Option.bind_eq_bind, Option.some_bind]
    rw [foldlM_alloc_input c g l (fun x hx => h x (List.mem_cons_of_mem a hx))]
    simp [alloc_input]

theorem foldlM_alloc_aux {F : Type} [One F] (c : CircomCircuit F) (g : Nat → F) (nI : Nat) :
    ∀ (l : List Nat), (∀ i ∈ l, wire_value c (i + nI) = some (g i)) →
      ∀ cs : CS F,
        l.foldlM (fun cs i => (wire_value c (i + nI)).bind (fun v => some (alloc cs v))) cs
          = some { cs with auxs := cs.auxs ++ l.map g }
  | [], _, cs => by simp
  | a :: l, h, cs => by
    rw [List.foldlM_cons, h a (List.mem_cons_self a l)]
    simp only [Option.bind_eq_bind, Option.some_bind]
    rw [foldlM_alloc_aux c g nI l (fun x hx => h x (List.mem_cons_of_mem a hx))]
    simp [alloc]

/-- **C1.**  Under the spec's structural invariants (witness and mapping
lengths equal the variable count, mapping values in range), `synthesize`
(1) appends one public variable per wire `i ∈ 1..num_inputs` whose value
is 1 with no witness bound and `witness[mapping(i) or i]` otherwise,
(2) appends one private variable per `i ∈ 0..num_aux` valued at logical
index `num_inputs + i`, and (3) appends one `A*B=C` constraint per stored
constraint, each term's wire index resolving to the public handle when
`< num_inputs` and to the private handle shifted by `num_inputs`
otherwise — all in the R1CS's stored order. -/
theorem c1_synthesize : ∀ (F : Type) [One F] (c : CircomCircuit F) (cs : CS F),
    (match c.witness with
     | none => True
     | some w => w.length = c.r1cs.num_inputs + c.r1cs.num_aux) →
    (match c.wire_mapping with
     | none => True
     | some m => m.length = c.r1cs.num_inputs + c.r1cs.num_aux ∧
         ∀ j ∈ m, j < c.r1cs.num_inputs + c.r1cs.num_aux) →
    synthesize c cs = some
      { inputs := cs.inputs ++ (List.range' 1 (c.r1cs.num_inputs - 1)).map (fun i =>
          match c.witness, c.wire_mapping with
          | none, _ => 1
          | some w, none => w.getD i 1
          | some w, some m => w.getD (m.getD i 0) 1),
        auxs := cs.auxs ++ (List.range c.r1cs.num_aux).map (fun i =>
          match c.witness, c.wire_mapping with
          | none, _ => 1
          | some w, none => w.getD (i + c.r1cs.num_inputs) 1
          | some w, some m => w.getD (m.getD (i + c.r1cs.num_inputs) 0) 1),
        constraints := cs.constraints ++ c.r1cs.constraints.map (fun con =>
          (con.1.map (fun t => (if t.1 < c.r1cs.num_inputs then Idx.input t.1
              else Idx.aux (t.1 - c.r1cs.num_inputs), t.2)),
           con.2.1.map (fun t => (if t.1 < c.r1cs.num_inputs then Idx.input t.1
              else Idx.aux (t.1 - c.r1cs.num_inputs), t.2)),
           con.2.2.map (fun t => (if t.1 < c.r1cs.num_inputs then Idx.input t.1
              else Idx.aux (t.1 - c.r1cs.num_inputs), t.2)))) } := by
  intro F _inst c cs hW hM
  have hval : ∀ i, i < c.r1cs.num_inputs + c.r1cs.num_aux →
      wire_value c i = some (match c.witness, c.wire_mapping with
        | none, _ => 1
        | some w, none => w.getD i 1
        | some w, some m => w.getD (m.getD i 0) 1) := by
    intro i hlt
    rcases hw : c.witness with _ | w
    · simp only [wire_value, hw]
    · rw [hw] at hW
      rcases hm : c.wire_mapping with _ | m
      · simp only [wire_value, hw, hm]
        rw [List.getElem?_eq_getElem (show i < w.length by omega),
          List.getD_eq_getElem w 1 (show i < w.length by omega)]
      · rw [hm] at hM
        obtain ⟨hml, hmb⟩ := hM
        simp only [wire_value, hw, hm]
        have him : i < m.length := by omega
        have hmi : m[i] < w.length := by
          have := hmb m[i] (List.getElem_mem him)
          omega
        rw [List.getElem?_eq_getElem him]
        simp only [Option.some_bind]
        rw [List.getElem?_eq_getElem hmi,
          List.getD_eq_getElem m 0 him, List.getD_eq_getElem w 1 hmi]
  rw [synthesize]
  rw [foldlM_alloc_input c _ (List.range' 1 (c.r1cs.num_inputs - 1)) (by
    intro i hi
    rw [List.mem_range'_1] at hi
    exact hval i (by omega)) cs]
  simp only [Option.bind_eq_bind, Option.some_bind]
  rw [foldlM_alloc_aux c _ c.r1cs.num_inputs (List.range c.r1cs.num_aux) (by
    intro i hi
    rw [List.mem_range] at hi
    exact hval (i + c.r1cs.num_inputs) (by omega)) _]
  simp only [Option.bind_eq_bind, Option.some_bind]
  rw [foldl_enforce]
  simp only [make_lc_eq_map, make_index]
  rfl

/-- **C1, witness.**  The theorem instantiated at the mapped example
circuit, starting from a builder holding only the constant-one input. -/
theorem c1_synthesize_witness :
    (match exCircuitMapped.witness with
     | none => True
     | some w => w.length = exCircuitMapped.r1cs.num_inputs + exCircuitMapped.r1cs.num_aux) ∧
    (match exCircuitMapped.wire_mapping with
     | none => True
     | some m => m.length = exCircuitMapped.r1cs.num_inputs + exCircuitMapped.r1cs.num_aux ∧
         ∀ j ∈ m, j < exCircuitMapped.r1cs.num_inputs + exCircuitMapped.r1cs.num_aux) ∧
    synthesize exCircuitMapped ⟨[1], [], []⟩ = some
      ⟨[1, 7], [5], [([(Idx.input 1, 2)], [(Idx.aux 0, 3)], [(Idx.input 0, 6)])]⟩ :=
  ⟨by simp only [exCircuitMapped]; decide, by simp only [exCircuitMapped]; decide,
    (c1_synthesize Nat exCircuitMapped ⟨[1], [], []⟩
      (by simp only [exCircuitMapped]; decide)
      (by simp only [exCircuitMapped]; decide)).trans (by decide)⟩

/-! # Claim C5 -/

theorem count_filter_eq {α : Type} [DecidableEq α] (p : α → Bool) (a : α) :
    ∀ l : List α, (l.filter p).count a = if p a then l.count a else 0
  | [] => by simp
  | x :: l => by
    by_cases hpx : p x
    · rw [List.filter_cons_of_pos hpx, List.count_cons, count_filter_eq p a l,
        List.count_cons]
      by_cases hpa : p a
      · simp [hpa]
      · have hxa : ¬ (x = a) := fun h => hpa (h ▸ hpx)
        simp [hpa, hxa]
    · rw [List.filter_cons_of_neg hpx, count_filter_eq p a l, List.count_cons]
      by_cases hpa : p a
      · have hxa : ¬ (x = a) := fun h => hpx (h ▸ hpa)
        simp [hpa, hxa]
      · simp [hpa]

theorem filter_table_spec {α : Type} [DecidableEq α] (isz : α → Bool) (l : List α) :
    (l.filter (fun x => !isz x)).length ≤ l.length ∧
    (l.filter (fun x => !isz x)).Sublist l ∧
    (l.filter (fun x => !isz x)).all (fun x => !isz x) = true ∧
    ∀ x : α, (l.filter (fun x => !isz x)).count x = if isz x then 0 else l.count x := by
  refine ⟨List.length_filter_le _ _, List.filter_sublist _, ?_, ?_⟩
  · rw [List.all_eq_true]
    intro x hx
    exact (List.mem_filter.mp hx).2
  · intro x
    rw [count_filter_eq]
    by_cases hx : isz x <;> simp [hx]

/-- **C5, counterexample.**  On `exAllZero` the parameter filter changes
*five* tables — `vk.ic`, `h`, `a`, `b_g1` and `b_g2` — not the four the
claim states. -/
theorem c5_counterexample :
    (filter_params exAllZero).vk.ic ≠ exAllZero.vk.ic ∧
    (filter_params exAllZero).h ≠ exAllZero.h ∧
    (filter_params exAllZero).a ≠ exAllZero.a ∧
    (filter_params exAllZero).b_g1 ≠ exAllZero.b_g1 ∧
    (filter_params exAllZero).b_g2 ≠ exAllZero.b_g2 := by
  refine ⟨?_, ?_, ?_, ?_, ?_⟩ <;> decide

/-- **C5, amended.**  `filter_params` removes exactly the group-identity
points from *five* tables (`vk.ic`, `h`, `a`, `b_g1`, `b_g2`): each
filtered table is a sublist of its input (order and values preserved) of
no greater length, the output holds no identity points, and every
non-identity point keeps its multiplicity; the `l` table and the scalar
verification-key points are untouched. -/
theorem c5_filter_params : ∀ p : Parameters,
    ((filter_params p).vk.ic.length ≤ p.vk.ic.length ∧
      (filter_params p).vk.ic.Sublist p.vk.ic ∧
      (filter_params p).vk.ic.all (fun x => !x.is_zero) = true ∧
      ∀ x : G1Point, (filter_params p).vk.ic.count x
        = if x.is_zero then 0 else p.vk.ic.count x) ∧
    ((filter_params p).h.length ≤ p.h.length ∧
      (filter_params p).h.Sublist p.h ∧
      (filter_params p).h.all (fun x => !x.is_zero) = true ∧
      ∀ x : G1Point, (filter_params p).h.count x
        = if x.is_zero then 0 else p.h.count x) ∧
    ((filter_params p).a.length ≤ p.a.length ∧
      (filter_params p).a.Sublist p.a ∧
      (filter_params p).a.all (fun x => !x.is_zero) = true ∧
      ∀ x : G1Point, (filter_params p).a.count x
        = if x.is_zero then 0 else p.a.count x) ∧
    ((filter_params p).b_g1.length ≤ p.b_g1.length ∧
      (filter_params p).b_g1.Sublist p.b_g1 ∧
      (filter_params p).b_g1.all (fun x => !x.is_zero) = true ∧
      ∀ x : G1Point, (filter_params p).b_g1.count x
        = if x.is_zero then 0 else p.b_g1.count x) ∧
    ((filter_params p).b_g2.length ≤ p.b_g2.length ∧
      (filter_params p).b_g2.Sublist p.b_g2 ∧
      (filter_params p).b_g2.all (fun x => !x.is_zero) = true ∧
      ∀ x : G2Point, (filter_params p).b_g2.count x
        = if x.is_zero then 0 else p.b_g2.count x) ∧
    (filter_params p).l = p.l ∧
    (filter_params p).vk.alpha_g1 = p.vk.alpha_g1 ∧
    (filter_params p).vk.beta_g1 = p.vk.beta_g1 ∧
    (filter_params p).vk.beta_g2 = p.vk.beta_g2 ∧
    (filter_params p).vk.gamma_g2 = p.vk.gamma_g2 ∧
    (filter_params p).vk.delta_g1 = p.vk.delta_g1 ∧
    (filter_params p).vk.delta_g2 = p.vk.delta_g2 := by
  intro p
  exact ⟨filter_table_spec _ _, filter_table_spec _ _, filter_table_spec _ _,
    filter_table_spec _ _, filter_table_spec _ _, rfl, rfl, rfl, rfl, rfl, rfl, rfl⟩

/-! # Claim C9 -/

/-- **C9.**  `prove` never mutates the caller's parameters: the value of
`params` visible to the caller after the call is unchanged, and the
backend's `create_random_proof` receives exactly the identity-filtered
private clone. -/
theorem c9_prove_frame : ∀ (C P : Type) (create_random_proof : C → Parameters → Nat → P)
    (circuit : C) (params : Parameters) (rng : Nat),
    (prove create_random_proof circuit params rng).2 = params ∧
    (prove create_random_proof circuit params rng).1
      = create_random_proof circuit (filter_params params) rng :=
  fun _ _ _ _ _ _ => ⟨rfl, rfl⟩

/-! # Claim C10 -/

/-- **C10.**  `verification_key_json`'s `nPublic` and
`create_verifier_sol`'s `<%vk_input_length%>` both compute
`vk.ic.len() - 1` with unguarded usize subtraction: they equal the length
minus one exactly when the IC table is non-empty, wrap to `2^64 - 1` when
it is empty, and the parameter filter can empty a non-empty IC table
(it drops identity points), so non-emptiness is a genuine unstated
precondition. -/
theorem c10_ic_length :
    (∀ p : Parameters, 1 ≤ p.vk.ic.length → p.vk.ic.length < 2 ^ 64 →
      verification_key_inputs_count p = p.vk.ic.length - 1 ∧
      vk_input_length p = p.vk.ic.length - 1) ∧
    (∀ p : Parameters, p.vk.ic.length = 0 →
      verification_key_inputs_count p = 2 ^ 64 - 1 ∧
      vk_input_length p = 2 ^ 64 - 1) ∧
    ((filter_params exAllZero).vk.ic.length = 0 ∧ exAllZero.vk.ic.length = 1 ∧
      verification_key_inputs_count (filter_params exAllZero) = 2 ^ 64 - 1 ∧
      vk_input_length (filter_params exAllZero) = 2 ^ 64 - 1) := by
  refine ⟨?_, ?_, by decide, by decide, by decide, by decide⟩
  · intro p h1 hlt
    constructor <;>
      simp only [verification_key_inputs_count, vk_input_length, usizeSub] <;> omega
  · intro p h0
    constructor <;>
      simp only [verification_key_inputs_count, vk_input_length, usizeSub, h0] <;> omega

/-- **C10, witness.**  The theorem instantiated at `exAllZero` (IC of
length one) and its filtered image (empty IC). -/
theorem c10_ic_length_witness :
    (1 ≤ exAllZero.vk.ic.length ∧ exAllZero.vk.ic.length < 2 ^ 64 ∧
      verification_key_inputs_count exAllZero = exAllZero.vk.ic.length - 1 ∧
      vk_input_length exAllZero = exAllZero.vk.ic.length - 1) ∧
    ((filter_params exAllZero).vk.ic.length = 0 ∧
      verification_key_inputs_count (filter_params exAllZero) = 2 ^ 64 - 1 ∧
      vk_input_length (filter_params exAllZero) = 2 ^ 64 - 1) :=
  ⟨⟨by decide, by decide, (c10_ic_length.1 exAllZero (by decide) (by decide)).1,
    (c10_ic_length.1 exAllZero (by decide) (by decide)).2⟩,
   ⟨by decide, (c10_ic_length.2.1 (filter_params exAllZero) (by decide)).1,
    (c10_ic_length.2.1 (filter_params exAllZero) (by decide)).2⟩⟩

/-! # Claim C6 -/

theorem log2_floor_go_eq (num : Nat) : ∀ fuel pow, 2 ^ pow ≤ num →
    Nat.log2 num ≤ pow + fuel → log2_floor_go num fuel pow = Nat.log2 num
  | 0, pow, hle, hup => by
    have hne : num ≠ 0 := by have := Nat.two_pow_pos pow; omega
    rw [log2_floor_go]
    have h1 : pow ≤ Nat.log2 num := (Nat.le_log2 hne).mpr hle
    omega
  | fuel + 1, pow, hle, hup => by
    have hne : num ≠ 0 := by have := Nat.two_pow_pos pow; omega
    rw [log2_floor_go]
    split
    · exact log2_floor_go_eq num fuel (pow + 1) (by assumption) (by omega)
    · have h1 : pow ≤ Nat.log2 num := (Nat.le_log2 hne).mpr hle
      have h2 : Nat.log2 num < pow + 1 := by
        by_contra hc
        exact absurd ((Nat.le_log2 hne).mp (not_lt.mp hc)) (by assumption)
      omega

theorem log2_floor_eq_log2 (num : Nat) (h : 0 < num) :
    log2_floor num = some (Nat.log2 num) := by
  rw [log2_floor, if_pos h]
  congr 1
  apply log2_floor_go_eq
  · simpa using h
  · have h2 : Nat.log2 num < num + 1 := (Nat.log2_lt (by omega)).mpr (by
      calc num < 2 ^ num := Nat.lt_two_pow num
        _ ≤ 2 ^ (num + 1) := Nat.pow_le_pow_right (by norm_num) (by omega))
    omega

/-- **C6.**  `proving_key_json` computes
`domainBits = floor(log2(num_constraints + num_inputs)) + 1` and
`domainSize = 2^domainBits`; in particular 10 constraints with
`num_inputs = 3` yield `domainBits = 4` and `domainSize = 16`. -/
theorem c6_domain :
    (∀ r : R1CS Nat, 0 < r.constraints.length + r.num_inputs →
      domain_bits r = some (Nat.log2 (r.constraints.length + r.num_inputs) + 1) ∧
      domain_size r = some (2 ^ (Nat.log2 (r.constraints.length + r.num_inputs) + 1))) ∧
    domain_bits exR1CS10 = some 4 ∧ domain_size exR1CS10 = some 16 := by
  refine ⟨?_, by decide, by decide⟩
  intro r h
  constructor
  · rw [domain_bits, log2_floor_eq_log2 _ h]
    rfl
  · rw [domain_size, domain_bits, log2_floor_eq_log2 _ h]
    rfl

/-- **C6, witness.**  The theorem instantiated at the 10-constraint,
3-input example. -/
theorem c6_domain_witness :
    0 < exR1CS10.constraints.length + exR1CS10.num_inputs ∧
    (domain_bits exR1CS10
        = some (Nat.log2 (exR1CS10.constraints.length + exR1CS10.num_inputs) + 1) ∧
      domain_size exR1CS10
        = some (2 ^ (Nat.log2 (exR1CS10.constraints.length + exR1CS10.num_inputs) + 1))) :=
  ⟨by decide, c6_domain.1 exR1CS10 (by decide)⟩

/-! # Decimal rendering is injective

`BTreeMap<String, String>` keys are the decimal strings `c.to_string()`;
the transposition proofs need that distinct constraint indices yield
distinct keys. -/

theorem digitsStr_small (n : Nat) (h : n < 10) : digitsStr n = [Nat.digitChar n] := by
  rw [digitsStr, if_pos h]

theorem digitsStr_big (n : Nat) (h : ¬ n < 10) :
    digitsStr n = digitsStr (n / 10) ++ [Nat.digitChar (n % 10)] := by
  rw [digitsStr]
  rw [if_neg h]

theorem digitsStr_ne_nil (n : Nat) : digitsStr n ≠ [] := by
  rw [digitsStr]
  split <;> simp

theorem toDigitsCore_eq_digitsStr :
    ∀ (fuel n : Nat) (ds : List Char), n < fuel →
      Nat.toDigitsCore 10 fuel n ds = digitsStr n ++ ds
  | 0, n, ds, h => absurd h (by omega)
  | fuel + 1, n, ds, h => by
    rw [Nat.toDigitsCore]
    by_cases h10 : n / 10 = 0
    · rw [if_pos h10, digitsStr_small n (by omega), Nat.mod_eq_of_lt (by omega)]
      rfl
    · have hlt : n / 10 < n := Nat.div_lt_self (by omega) (by norm_num)
      rw [if_neg h10, toDigitsCore_eq_digitsStr fuel (n / 10) _ (by omega),
        digitsStr_big n (by omega)]
      simp

theorem digitChar_inj_lt : ∀ a : Nat, a < 10 → ∀ b : Nat, b < 10 →
    Nat.digitChar a = Nat.digitChar b → a = b := by decide

theorem digitsStr_inj : ∀ a b : Nat, digitsStr a = digitsStr b → a = b := by
  intro a
  induction a using Nat.strong_induction_on with
  | _ a ih =>
    intro b h
    by_cases ha : a < 10 <;> by_cases hb : b < 10
    · rw [digitsStr_small a ha, digitsStr_small b hb] at h
      exact digitChar_inj_lt a ha b hb (by simpa using h)
    · rw [digitsStr_small a ha, digitsStr_big b hb] at h
      rcases hD : digitsStr (b / 10) with _ | ⟨c0, tl⟩
      · exact absurd hD (digitsStr_ne_nil _)
      · rw [hD] at h
        simp at h
    · rw [digitsStr_big a ha, digitsStr_small b hb] at h
      rcases hD : digitsStr (a / 10) with _ | ⟨c0, tl⟩
      · exact absurd hD (digitsStr_ne_nil _)
      · rw [hD] at h
        simp at h
    · rw [digitsStr_big a ha, digitsStr_big b hb] at h
      obtain ⟨h1, h2⟩ := List.append_inj' h (by simp)
      have hdiv : a / 10 = b / 10 :=
        ih (a / 10) (Nat.div_lt_self (by omega) (by norm_num)) (b / 10) h1
      have hmod : a % 10 = b % 10 :=
        digitChar_inj_lt _ (Nat.mod_lt a (by norm_num)) _ (Nat.mod_lt b (by norm_num))
          (by simpa using h2)
      omega

theorem nat_repr_inj : ∀ {a b : Nat}, Nat.repr a = Nat.repr b → a = b := by
  intro a b h
  have hd : (Nat.repr a).data = (Nat.repr b).data := congrArg String.data h
  have ha : (Nat.repr a).data = digitsStr a ++ [] := by
    show (Nat.toDigitsCore 10 (a + 1) a []).asString.data = _
    rw [toDigitsCore_eq_digitsStr (a + 1) a [] (by omega)]
    rfl
  have hb : (Nat.repr b).data = digitsStr b ++ [] := by
    show (Nat.toDigitsCore 10 (b + 1) b []).asString.data = _
    rw [toDigitsCore_eq_digitsStr (b + 1) b [] (by omega)]
    rfl
  apply digitsStr_inj
  have := ha ▸ hb ▸ hd
  simpa using this

/-! # Claim C7 -/

theorem btLookup_insert (k v k' : String) :
    ∀ m : BTMap, btLookup (btInsert k v m) k' = if k' = k then some v else btLookup m k'
  | [] => by
    rw [btInsert]
    by_cases h : k' = k <;> simp [btLookup, h]
  | (k0, v0) :: rest => by
    rw [btInsert]
    by_cases hk : k = k0
    · subst hk
      rw [if_pos rfl]
      by_cases h : k' = k <;> simp [btLookup, h]
    · rw [if_neg hk]
      by_cases hlt : k < k0
      · rw [if_pos hlt]
        by_cases h : k' = k <;> simp [btLookup, h]
      · rw [if_neg hlt]
        by_cases h : k' = k0
        · subst h
          have hne : ¬ (k' = k) := fun he => hk he.symm
          simp [btLookup, hne]
        · simp [btLookup, h, btLookup_insert k v k' rest]

theorem lastCoeff_init (u : Nat) : ∀ (terms : List (Nat × Nat)) (init : Option Nat),
    terms.foldl (fun acc t => if t.1 = u then some t.2 else acc) init
      = match lastCoeff terms u with
        | some v => some v
        | none => init
  | [], init => by simp [lastCoeff]
  | s :: rest, init => by
    rw [lastCoeff, List.foldl_cons, List.foldl_cons, lastCoeff_init u rest,
      lastCoeff_init u rest]
    rcases lastCoeff rest u with _ | v
    · by_cases h : s.1 = u <;> simp [h]
    · simp

theorem insertTerm_spec (c : Nat) (ps : List BTMap) (t : Nat × Nat) (h : t.1 < ps.length) :
    ∃ ps', insertTerm c ps t = some ps' ∧ ps'.length = ps.length ∧
      ∀ u : Nat, mapAt ps' u = if u = t.1
        then btInsert (Nat.repr c) (repr_to_big t.2) (mapAt ps u)
        else mapAt ps u := by
  refine ⟨ps.set t.1 (btInsert (Nat.repr c) (repr_to_big t.2) (ps.get ⟨t.1, h⟩)),
    by rw [insertTerm, dif_pos h], by simp, ?_⟩
  intro u
  by_cases hu : u = t.1
  · subst hu
    rw [if_pos rfl, mapAt, mapAt,
      List.getD_eq_getElem _ _ (by simpa using h), List.getElem_set_self,
      List.getD_eq_getElem _ _ h, List.get_eq_getElem]
  · rw [if_neg hu, mapAt, mapAt]
    rcases lt_or_ge u ps.length with hu2 | hu2
    · rw [List.getD_eq_getElem _ _ (by simpa using hu2), List.getD_eq_getElem _ _ hu2,
        List.getElem_set_ne (fun he => hu he.symm)]
    · rw [List.getD_eq_default _ _ (by simpa using hu2), List.getD_eq_default _ _ hu2]

theorem insertLC_spec (c : Nat) :
    ∀ (terms : List (Nat × Nat)) (ps : List BTMap), (∀ t ∈ terms, t.1 < ps.length) →
      ∃ ps', insertLC c ps terms = some ps' ∧ ps'.length = ps.length ∧
        (∀ u : Nat, ∀ k : String, k ≠ Nat.repr c →
          btLookup (mapAt ps' u) k = btLookup (mapAt ps u) k) ∧
        (∀ u : Nat, btLookup (mapAt ps' u) (Nat.repr c)
          = match lastCoeff terms u with
            | some v => some (repr_to_big v)
            | none => btLookup (mapAt ps u) (Nat.repr c))
  | [], ps, _ => ⟨ps, rfl, rfl, fun _ _ _ => rfl, fun u => by simp [lastCoeff]⟩
  | t :: rest, ps, h => by
    obtain ⟨ps1, hps1, hlen1, hmap1⟩ := insertTerm_spec c ps t (h t (List.mem_cons_self t rest))
    obtain ⟨ps', hps', hlen', hother, hkey⟩ := insertLC_spec c rest ps1
      (fun x hx => hlen1 ▸ h x (List.mem_cons_of_mem t hx))
    refine ⟨ps', ?_, by rw [hlen', hlen1], ?_, ?_⟩
    · rw [insertLC, List.foldlM_cons, hps1]
      simp only [Option.bind_eq_bind, Option.some_bind]
      exact hps'
    · intro u k hk
      rw [hother u k hk, hmap1 u]
      by_cases hu : u = t.1
      · rw [if_pos hu, btLookup_insert, if_neg hk]
      · rw [if_neg hu]
    · intro u
      rw [hkey u]
      have hstep : btLookup (mapAt ps1 u) (Nat.repr c)
          = if t.1 = u then some (repr_to_big t.2)
            else btLookup (mapAt ps u) (Nat.repr c) := by
        rw [hmap1 u]
        by_cases hu : u = t.1
        · rw [if_pos hu, btLookup_insert, if_pos rfl, if_pos (hu ▸ rfl)]
        · rw [if_neg hu, if_neg (fun he => hu he.symm)]
      rw [hstep]
      have hlast : lastCoeff (t :: rest) u
          = match lastCoeff rest u with
            | some v => some v
            | none => if t.1 = u then some t.2 else none := by
        rw [lastCoeff, List.foldl_cons, lastCoeff_init]
      rw [hlast]
      rcases lastCoeff rest u with _ | v
      · by_cases ht : t.1 = u <;> simp [ht]
      · simp

theorem transposeLCs_spec :
    ∀ (lcs : List (List (Nat × Nat))) (c0 : Nat) (ps : List BTMap),
      (∀ lc ∈ lcs, ∀ t ∈ lc, t.1 < ps.length) →
      ∃ ps', transposeLCs c0 ps lcs = some ps' ∧ ps'.length = ps.length ∧
        (∀ u : Nat, ∀ k : String, (∀ j : Nat, j < lcs.length → k ≠ Nat.repr (c0 + j)) →
          btLookup (mapAt ps' u) k = btLookup (mapAt ps u) k) ∧
        (∀ u j : Nat, j < lcs.length →
          btLookup (mapAt ps' u) (Nat.repr (c0 + j))
            = match lastCoeff (lcs.getD j []) u with
              | some v => some (repr_to_big v)
              | none => btLookup (mapAt ps u) (Nat.repr (c0 + j)))
  | [], c0, ps, _ => ⟨ps, rfl, rfl, fun _ _ _ => rfl, fun u j hj => absurd hj (by simp)⟩
  | lc :: rest, c0, ps, h => by
    obtain ⟨ps1, hps1, hlen1, hother1, hkey1⟩ :=
      insertLC_spec c0 lc ps (h lc (List.mem_cons_self lc rest))
    obtain ⟨ps', hps', hlen', hother, hkey⟩ := transposeLCs_spec rest (c0 + 1) ps1
      (fun l hl t ht => hlen1 ▸ h l (List.mem_cons_of_mem lc hl) t ht)
    refine ⟨ps', ?_, by rw [hlen', hlen1], ?_, ?_⟩
    · rw [transposeLCs, hps1]
      simp only [Option.bind_eq_bind, Option.some_bind]
      exact hps'
    · intro u k hk
      rw [hother u k (fun j hj => by
        have := hk (j + 1) (by simpa using Nat.succ_lt_succ hj)
        simpa [Nat.add_assoc, Nat.add_comm 1 j, Nat.add_left_comm] using this),
        hother1 u k (hk 0 (by simp))]
    · intro u j hj
      rcases j with _ | j'
      · simp only [Nat.add_zero, List.getD_cons_zero]
        rw [hother u (Nat.repr c0) (fun j' hj' => by
          intro he
          have : c0 = c0 + 1 + j' := nat_repr_inj he
          omega), hkey1 u]
      · simp only [List.getD_cons_succ]
        have hj' : j' < rest.length := by simpa using Nat.lt_of_succ_lt_succ hj
        have harith : c0 + (j' + 1) = c0 + 1 + j' := by omega
        rw [harith, hkey u j' hj']
        have hpass : btLookup (mapAt ps1 u) (Nat.repr (c0 + 1 + j'))
            = btLookup (mapAt ps u) (Nat.repr (c0 + 1 + j')) := by
          apply hother1
          intro he
          have : c0 + 1 + j' = c0 := nat_repr_inj he
          omega
        rw [hpass]

theorem mapAt_set (ps : List BTMap) (i : Nat) (b : BTMap) (hi : i < ps.length) (u : Nat) :
    mapAt (ps.set i b) u = if u = i then b else mapAt ps u := by
  by_cases hu : u = i
  · subst hu
    rw [if_pos rfl, mapAt, List.getD_eq_getElem _ _ (by simpa using hi),
      List.getElem_set_self]
  · rw [if_neg hu, mapAt, mapAt]
    rcases lt_or_ge u ps.length with hu2 | hu2
    · rw [List.getD_eq_getElem _ _ (by simpa using hu2), List.getD_eq_getElem _ _ hu2,
        List.getElem_set_ne (fun he => hu he.symm)]
    · rw [List.getD_eq_default _ _ (by simpa using hu2), List.getD_eq_default _ _ hu2]

theorem get_eq_mapAt (ps : List BTMap) (i : Nat) (h : i < ps.length) :
    ps.get ⟨i, h⟩ = mapAt ps i := by
  rw [mapAt, List.getD_eq_getElem _ _ h, List.get_eq_getElem]

theorem addSynthetic_spec (nC : Nat) :
    ∀ (nI : Nat) (ps : List BTMap), nI ≤ ps.length →
      ∃ ps', addSynthetic nC nI ps = some ps' ∧ ps'.length = ps.length ∧
        (∀ u : Nat, ∀ k : String, (∀ i : Nat, i < nI → k ≠ Nat.repr (nC + i)) →
          btLookup (mapAt ps' u) k = btLookup (mapAt ps u) k) ∧
        (∀ u i : Nat, i < nI →
          btLookup (mapAt ps' u) (Nat.repr (nC + i))
            = if u = i then some "1" else btLookup (mapAt ps u) (Nat.repr (nC + i)))
  | 0, ps, _ => ⟨ps, rfl, rfl, fun _ _ _ => rfl, fun u i hi => absurd hi (by omega)⟩
  | n + 1, ps, hle => by
    obtain ⟨ps1, hps1, hlen1, hother1, hkey1⟩ := addSynthetic_spec nC n ps (by omega)
    have hn : n < ps1.length := by omega
    refine ⟨ps1.set n (btInsert (Nat.repr (nC + n)) "1" (ps1.get ⟨n, hn⟩)), ?_,
      by simp [hlen1], ?_, ?_⟩
    · rw [addSynthetic, List.range_succ, List.foldlM_append]
      rw [addSynthetic] at hps1
      rw [hps1]
      simp only [Option.bind_eq_bind, Option.some_bind, List.foldlM_cons, dif_pos hn]
      rfl
    · intro u k hk
      rw [mapAt_set ps1 n _ hn u]
      by_cases hu : u = n
      · rw [if_pos hu, btLookup_insert, if_neg (hk n (by omega)), get_eq_mapAt ps1 n hn, hu,
          hother1 n k (fun i hi => hk i (by omega))]
      · rw [if_neg hu, hother1 u k (fun i hi => hk i (by omega))]
    · intro u i hi
      rw [mapAt_set ps1 n _ hn u]
      by_cases hin : i = n
      · subst hin
        by_cases hu : u = i
        · rw [if_pos hu, hu, btLookup_insert, if_pos rfl, if_pos rfl]
        · rw [if_neg hu, if_neg hu,
            hother1 u (Nat.repr (nC + i)) (fun i' hi' => fun he => by
              have := nat_repr_inj he
              omega)]
      · have hi2 : i < n := by omega
        by_cases hu : u = n
        · rw [if_pos hu, btLookup_insert,
            if_neg (fun he => by have := nat_repr_inj he; omega),
            get_eq_mapAt ps1 n hn, hu, hkey1 n i hi2, if_neg (by omega)]
        · rw [if_neg hu, hkey1 u i hi2]

theorem mapAt_init (n u : Nat) : mapAt (pols_init n) u = [] := by
  rw [mapAt, pols_init]
  rcases lt_or_ge u n with h | h
  · rw [List.getD_eq_getElem _ _ (by simpa using h), List.getElem_replicate]
  · rw [List.getD_eq_default _ _ (by simpa using h)]

theorem getD_map_pols {A B : Type} (f : A → B) (l : List A) (j : Nat) (d : A) :
    (l.map f).getD j (f d) = f (l.getD j d) := by
  rcases lt_or_ge j l.length with h | h
  · rw [List.getD_eq_getElem _ _ (by simpa using h), List.getD_eq_getElem _ _ h,
      List.getElem_map]
  · rw [List.getD_eq_default _ _ (by simpa using h), List.getD_eq_default _ _ h]

/-- **C7.**  `proving_key_json` builds `polsA`/`polsB`/`polsC` as per-wire
sparse maps from the decimal-string constraint index to the rendered
coefficient by transposing the constraint list (the last term wins for a
duplicated wire index, matching `BTreeMap::insert`), and then appends the
`num_inputs` synthetic unit entries — into `polsA` only — at constraint
indices `num_constraints .. num_constraints + num_inputs`, after the real
constraints; `polsB`/`polsC` hold no entry at any index past the real
constraints. -/
theorem c7_pols : ∀ r : R1CS Nat,
    (∀ con ∈ r.constraints,
      (∀ t ∈ con.1, t.1 < r.num_aux + r.num_inputs) ∧
      (∀ t ∈ con.2.1, t.1 < r.num_aux + r.num_inputs) ∧
      (∀ t ∈ con.2.2, t.1 < r.num_aux + r.num_inputs)) →
    ∃ pa pb pc, proving_key_pols r = some (pa, pb, pc) ∧
      pa.length = r.num_aux + r.num_inputs ∧
      pb.length = r.num_aux + r.num_inputs ∧
      pc.length = r.num_aux + r.num_inputs ∧
      (∀ u j : Nat, j < r.constraints.length →
        btLookup (mapAt pa u) (Nat.repr j)
            = (lastCoeff (r.constraints.getD j ([], [], [])).1 u).map repr_to_big ∧
        btLookup (mapAt pb u) (Nat.repr j)
            = (lastCoeff (r.constraints.getD j ([], [], [])).2.1 u).map repr_to_big ∧
        btLookup (mapAt pc u) (Nat.repr j)
            = (lastCoeff (r.constraints.getD j ([], [], [])).2.2 u).map repr_to_big) ∧
      (∀ u i : Nat, i < r.num_inputs →
        btLookup (mapAt pa u) (Nat.repr (r.constraints.length + i))
          = if u = i then some "1" else none) ∧
      (∀ u k : Nat, r.constraints.length ≤ k →
        btLookup (mapAt pb u) (Nat.repr k) = none ∧
        btLookup (mapAt pc u) (Nat.repr k) = none) := by
  intro r hwire
  have hlinit : (pols_init (r.num_aux + r.num_inputs)).length
      = r.num_aux + r.num_inputs := by
    rw [pols_init, List.length_replicate]
  obtain ⟨pa0, hpa0, hlenA, hoA, hkA⟩ := transposeLCs_spec
    (r.constraints.map (fun t => t.1)) 0 (pols_init (r.num_aux + r.num_inputs)) (by
      intro lc hlc t ht
      rw [hlinit]
      obtain ⟨con, hcon, rfl⟩ := List.mem_map.mp hlc
      exact (hwire con hcon).1 t ht)
  obtain ⟨pb, hpb, hlenB, hoB, hkB⟩ := transposeLCs_spec
    (r.constraints.map (fun t => t.2.1)) 0 (pols_init (r.num_aux + r.num_inputs)) (by
      intro lc hlc t ht
      rw [hlinit]
      obtain ⟨con, hcon, rfl⟩ := List.mem_map.mp hlc
      exact (hwire con hcon).2.1 t ht)
  obtain ⟨pc, hpc, hlenC, hoC, hkC⟩ := transposeLCs_spec
    (r.constraints.map (fun t => t.2.2)) 0 (pols_init (r.num_aux + r.num_inputs)) (by
      intro lc hlc t ht
      rw [hlinit]
      obtain ⟨con, hcon, rfl⟩ := List.mem_map.mp hlc
      exact (hwire con hcon).2.2 t ht)
  obtain ⟨pa, hpa, hlenS, hoS, hkS⟩ := addSynthetic_spec r.constraints.length
    r.num_inputs pa0 (by rw [hlenA, hlinit]; omega)
  refine ⟨pa, pb, pc, ?_, by rw [hlenS, hlenA, hlinit], by rw [hlenB, hlinit],
    by rw [hlenC, hlinit], ?_, ?_, ?_⟩
  · rw [proving_key_pols]
    simp only [hpa0, hpb, hpc, hpa, Option.bind_eq_bind, Option.some_bind]
    rfl
  · intro u j hj
    have hgetA : ((r.constraints.map (fun t => t.1)).getD j [])
        = (r.constraints.getD j ([], [], [])).1 :=
      getD_map_pols (fun t => t.1) r.constraints j ([], [], [])
    have hgetB : ((r.constraints.map (fun t => t.2.1)).getD j [])
        = (r.constraints.getD j ([], [], [])).2.1 :=
      getD_map_pols (fun t => t.2.1) r.constraints j ([], [], [])
    have hgetC : ((r.constraints.map (fun t => t.2.2)).getD j [])
        = (r.constraints.getD j ([], [], [])).2.2 :=
      getD_map_pols (fun t => t.2.2) r.constraints j ([], [], [])
    refine ⟨?_, ?_, ?_⟩
    · rw [hoS u (Nat.repr j) (fun i hi he => by have := nat_repr_inj he; omega)]
      have hja := hkA u j (by rwa [List.length_map])
      rw [Nat.zero_add] at hja
      rw [hja, hgetA, mapAt_init]
      rcases lastCoeff (r.constraints.getD j ([], [], [])).1 u with _ | v
      · rfl
      · rfl
    · have hjb := hkB u j (by rwa [List.length_map])
      rw [Nat.zero_add] at hjb
      rw [hjb, hgetB, mapAt_init]
      rcases lastCoeff (r.constraints.getD j ([], [], [])).2.1 u with _ | v
      · rfl
      · rfl
    · have hjc := hkC u j (by rwa [List.length_map])
      rw [Nat.zero_add] at hjc
      rw [hjc, hgetC, mapAt_init]
      rcases lastCoeff (r.constraints.getD j ([], [], [])).2.2 u with _ | v
      · rfl
      · rfl
  · intro u i hi
    rw [hkS u i hi]
    by_cases hu : u = i
    · rw [if_pos hu, if_pos hu]
    · rw [if_neg hu, if_neg hu,
        hoA u (Nat.repr (r.constraints.length + i)) (fun j hj he => by
          rw [List.length_map] at hj
          have := nat_repr_inj he
          omega),
        mapAt_init]
      rfl
  · intro u k hk
    constructor
    · rw [hoB u (Nat.repr k) (fun j hj he => by
        rw [List.length_map] at hj
        have := nat_repr_inj he
        omega), mapAt_init]
      rfl
    · rw [hoC u (Nat.repr k) (fun j hj he => by
        rw [List.length_map] at hj
        have := nat_repr_inj he
        omega), mapAt_init]
      rfl

/-- **C7, witness.**  The theorem instantiated at a two-constraint,
two-input, two-aux R1CS exercising the transposition. -/
theorem c7_pols_witness :
    (∀ con ∈ exR1CSPols.constraints,
      (∀ t ∈ con.1, t.1 < exR1CSPols.num_aux + exR1CSPols.num_inputs) ∧
      (∀ t ∈ con.2.1, t.1 < exR1CSPols.num_aux + exR1CSPols.num_inputs) ∧
      (∀ t ∈ con.2.2, t.1 < exR1CSPols.num_aux + exR1CSPols.num_inputs)) ∧
    (∃ pa pb pc, proving_key_pols exR1CSPols = some (pa, pb, pc) ∧
      pa.length = exR1CSPols.num_aux + exR1CSPols.num_inputs ∧
      pb.length = exR1CSPols.num_aux + exR1CSPols.num_inputs ∧
      pc.length = exR1CSPols.num_aux + exR1CSPols.num_inputs ∧
      (∀ u j : Nat, j < exR1CSPols.constraints.length →
        btLookup (mapAt pa u) (Nat.repr j)
            = (lastCoeff (exR1CSPols.constraints.getD j ([], [], [])).1 u).map repr_to_big ∧
        btLookup (mapAt pb u) (Nat.repr j)
            = (lastCoeff (exR1CSPols.constraints.getD j ([], [], [])).2.1 u).map repr_to_big ∧
        btLookup (mapAt pc u) (Nat.repr j)
            = (lastCoeff (exR1CSPols.constraints.getD j ([], [], [])).2.2 u).map repr_to_big) ∧
      (∀ u i : Nat, i < exR1CSPols.num_inputs →
        btLookup (mapAt pa u) (Nat.repr (exR1CSPols.constraints.length + i))
          = if u = i then some "1" else none) ∧
      (∀ u k : Nat, exR1CSPols.constraints.length ≤ k →
        btLookup (mapAt pb u) (Nat.repr k) = none ∧
        btLookup (mapAt pc u) (Nat.repr k) = none)) :=
  ⟨by decide, c7_pols exR1CSPols (by decide)⟩

/-! # Claim C8 -/

theorem infix_append_extend {A : Type} (l a b : List A) (h : l <:+: b) : l <:+: a ++ b := by
  obtain ⟨s, t, rfl⟩ := h
  exact ⟨a ++ s, t, by simp⟩

theorem p1_to_str_zero (p : G1Point) (h : p.is_zero = true) :
    p1_to_str p = "<POINT_AT_INFINITY>" := by
  rw [p1_to_str, if_pos h]

theorem p2_to_str_zero (q : G2Point) (h : q.is_zero = true) :
    p2_to_str q = "<POINT_AT_INFINITY>" := by
  rw [p2_to_str, if_pos h]

theorem ic_line_zero_infix (vi : String) (i : Nat) (p : G1Point) (h : p.is_zero = true) :
    ("Pairing.G1Point(<POINT_AT_INFINITY>)" : String).data <:+: (ic_line vi i p).data := by
  rw [ic_line, p1_to_str_zero p h]
  simp only [String.data_append, List.append_assoc]
  refine infix_append_extend _ _ _ ?_
  refine infix_append_extend _ _ _ ?_
  refine infix_append_extend _ _ _ ?_
  refine infix_append_extend _ _ _ ?_
  decide

theorem ic_line_pre (vi : String) (i : Nat) (p : G1Point) :
    vi.data <+: (ic_line vi i p).data := by
  rw [ic_line]
  simp only [String.data_append, List.append_assoc]
  exact List.prefix_append _ _

theorem icfold_pre : ∀ (l : List (Nat × G1Point)) (acc : String),
    acc.data <+: (l.foldl (fun vi t => ic_line vi t.1 t.2) acc).data
  | [], acc => List.prefix_refl _
  | t :: l, acc => by
    rw [List.foldl_cons]
    exact (ic_line_pre acc t.1 t.2).trans (icfold_pre l (ic_line acc t.1 t.2))

theorem icfold_keeps (needle : String) :
    ∀ (l : List (Nat × G1Point)) (acc : String),
      needle.data <:+: acc.data →
      needle.data <:+: (l.foldl (fun vi t => ic_line vi t.1 t.2) acc).data :=
  fun l acc h => h.trans (icfold_pre l acc).isInfix

/-- **C8.**  Identity curve points are rendered as the explicit
placeholder string rather than failing: the `p1_to_str` and `p2_to_str`
closures return `<POINT_AT_INFINITY>` for any identity point, the
generated IC-assignment text contains
`Pairing.G1Point(<POINT_AT_INFINITY>)` whenever any input-commitment
point is the identity, and `create_verifier_sol` is insensitive to the
coordinates carried by an identity point (it substitutes the placeholder,
never reading the coordinates). -/
theorem c8_identity_points :
    (∀ p : G1Point, p.is_zero = true → p1_to_str p = "<POINT_AT_INFINITY>") ∧
    (∀ q : G2Point, q.is_zero = true → p2_to_str q = "<POINT_AT_INFINITY>") ∧
    (∀ (ic : List G1Point) (i : Nat) (p : G1Point), ic[i]? = some p → p.is_zero = true →
      strContains (ic_points_str ic) "Pairing.G1Point(<POINT_AT_INFINITY>)") ∧
    (∀ (template : String) (params : Parameters), params.vk.beta_g2.is_zero = true →
      create_verifier_sol template params
        = create_verifier_sol template
            { params with vk := { params.vk with beta_g2 := zeroG2 } }) := by
  refine ⟨p1_to_str_zero, p2_to_str_zero, ?_, ?_⟩
  · intro ic i p hip hz
    have hmem : (i, p) ∈ ic.enum := by
      rw [List.mem_enum_iff_getElem?]
      exact hip
    obtain ⟨s, t, hst⟩ := List.append_of_mem hmem
    rw [strContains, ic_points_str, hst, List.foldl_append, List.foldl_cons]
    apply icfold_keeps
    exact ic_line_zero_infix _ i p hz
  · intro template params h
    rw [create_verifier_sol, create_verifier_sol, p2_to_str_zero _ h]
    rw [show ({ params with vk := { params.vk with beta_g2 := zeroG2 } }
        : Parameters).vk.beta_g2 = zeroG2 from rfl, p2_to_str_zero zeroG2 rfl]
    rfl

/-- **C8, witness.**  The theorem instantiated at the identity points and
a one-point IC table. -/
theorem c8_identity_points_witness :
    (zeroG1.is_zero = true ∧ p1_to_str zeroG1 = "<POINT_AT_INFINITY>") ∧
    (zeroG2.is_zero = true ∧ p2_to_str zeroG2 = "<POINT_AT_INFINITY>") ∧
    (([zeroG1] : List G1Point)[0]? = some zeroG1 ∧ zeroG1.is_zero = true ∧
      strContains (ic_points_str [zeroG1]) "Pairing.G1Point(<POINT_AT_INFINITY>)") ∧
    (({ exAllZero with vk := { exAllZero.vk with beta_g2 := ⟨true, 9, 9, 9, 9⟩ } }
        : Parameters).vk.beta_g2.is_zero = true ∧
      create_verifier_sol "<%vk_beta2%>"
          { exAllZero with vk := { exAllZero.vk with beta_g2 := ⟨true, 9, 9, 9, 9⟩ } }
        = create_verifier_sol "<%vk_beta2%>"
            { { exAllZero with vk := { exAllZero.vk with beta_g2 := ⟨true, 9, 9, 9, 9⟩ } }
              with vk := { { exAllZero with
                vk := { exAllZero.vk with beta_g2 := ⟨true, 9, 9, 9, 9⟩ } }.vk
                  with beta_g2 := zeroG2 } }) :=
  ⟨⟨rfl, c8_identity_points.1 zeroG1 rfl⟩,
   ⟨rfl, c8_identity_points.2.1 zeroG2 rfl⟩,
   ⟨rfl, rfl, c8_identity_points.2.2.1 [zeroG1] 0 zeroG1 rfl rfl⟩,
   ⟨rfl, c8_identity_points.2.2.2 "<%vk_beta2%>"
      { exAllZero with vk := { exAllZero.vk with beta_g2 := ⟨true, 9, 9, 9, 9⟩ } } rfl⟩⟩

end Zkutil

